import Mathlib

/-!
# Leader election of CacheTorrent

A shallow embedding of `cache_torrent/election.go` (type `Election` and its
methods) and of `multi_torrent/election.go` (type `MultiElection`), and
theorems about them.

Modelling conventions.

* The engine is a passive object whose methods run under one mutex; the model
  is the sequential semantics: every method is a function from the state before
  the call to the state after it.  The `Unlock`/`Lock` pairs around nested calls
  have no sequential effect and do not appear.
* A Go `map[string]V` is an association list.  `lookupKey` is the two-valued
  read `v, ok := m[k]`, `readKey` the one-valued read `m[k]` (zero value, the
  nil slice, when the key is absent) and `storeKey` the assignment `m[k] = v`.
  `range` visits the bindings in list order; Go leaves that order unspecified.
* A slice is a `List`; the nil slice and the empty slice are both `[]`.
  `sort.Sort` works in place on the backing array shared with the map entry,
  so `Elect` returns the state with the sorted registry next to its result.
* `Candidate`, `Leaders`, `getAS`, `FullId` and the constant `LeaderPercent` are
  declared outside the files at hand.  `Candidate` has the three fields the code
  reads (`Id`, `Up`, `Down`, integers), `getAS` and `LeaderPercent` are
  parameters collected in `Env`, `FullId` is a parameter of the composer, and a
  `Leaders{ids}` message is the list `ids`.
* `int` values are unbounded integers.  The counter grows by one per
  registration and cannot leave the 64-bit range in an execution that fits in
  memory.  The quorum product `len * LeaderPercent` is exact, which agrees with
  Go for a percentage between 0 and 100 (the configured range); the theorems
  about the size or the non-emptiness of the elected list assume that range.
  Go's `/` is truncated division, `Int.tdiv`.
* Go compares strings bytewise; on UTF-8 this is the lexicographic order of the
  code points, `a.toList < b.toList`.
* The transport is the log `sent` of the `ControlSend(target, Leaders{ids})`
  calls made so far, oldest first.  `runs` is a history variable counting the
  invocations of `RunElection`; no operation reads it.
-/

namespace CacheTorrent

/-! ## Go maps -/

/-- The read `v, ok := m[k]`: the value bound to `k`, if any. -/
def lookupKey {V : Type} : List (String × V) → String → Option V
  | [], _ => none
  | (k1, v) :: m, k => if k1 = k then some v else lookupKey m k

/-- The read `m[k]` of a map of slices: the nil slice when `k` is absent. -/
def readKey {V : Type} (m : List (String × List V)) (k : String) : List V :=
  match lookupKey m k with
  | some v => v
  | none => []

/-- The assignment `m[k] = v`: overwrite the binding of `k`, or add one. -/
def storeKey {V : Type} : List (String × V) → String → V → List (String × V)
  | [], k, v => [(k, v)]
  | (k1, v1) :: m, k, v => if k1 = k then (k, v) :: m else (k1, v1) :: storeKey m k v

/-- The keys of a map, in iteration order. -/
def keysOf {V : Type} (m : List (String × V)) : List String :=
  m.map Prod.fst

/-! ## Data model -/

/-- A candidate message: identity, upload capacity, download capacity. -/
structure Candidate where
  Id : String
  Up : Int
  Down : Int
deriving DecidableEq, Repr

/-- The collaborators declared outside the files at hand: the partition of an
identity and the configured leader percentage. -/
structure Env where
  getAS : String → String
  LeaderPercent : Int

/-- The fields of `Election`, the transport replaced by its send log. -/
structure Election where
  limit : Int
  nodes : Int
  camera : List (String × List String)
  candidates : List (String × List Candidate)
  elected : List (String × List String)
  sent : List (String × List String)
  runs : Nat
deriving DecidableEq, Repr

/-- The constructor `NewElection(limit, transport)`, with a transport on which
nothing has been sent. -/
def NewElection (limit : Int) : Election :=
  { limit := limit, nodes := 0, camera := [], candidates := [], elected := [],
    sent := [], runs := 0 }

/-! ## Ranking and sorting -/

/-- The comparison `byId.Less` on the two candidates at positions `i` and `j`. -/
def Less (a b : Candidate) : Bool :=
  if a.Up ≠ b.Up then decide (a.Up > b.Up)
  else if a.Down ≠ b.Down then decide (a.Down > b.Down)
  else decide (a.Id.toList < b.Id.toList)

/-- The order `sort.Sort` establishes: no later element is `Less` than an
earlier one. -/
def rankLE (a b : Candidate) : Prop := Less b a = false

instance rankLE_decidable : DecidableRel rankLE :=
  fun a b => inferInstanceAs (Decidable (Less b a = false))

/-- The ranking in the words of the specification: higher upload first, ties
broken by higher download, remaining ties by identity ascending.  Holds when
`a` may stand before `b`. -/
def rankedBefore (a b : Candidate) : Prop :=
  b.Up < a.Up ∨ (a.Up = b.Up ∧ (b.Down < a.Down ∨
    (a.Down = b.Down ∧ a.Id.toList ≤ b.Id.toList)))

/-- The call `sort.Sort(byId(candidates))`, as insertion sort (the procedure
Go itself runs on short slices). -/
def sortById (l : List Candidate) : List Candidate :=
  List.insertionSort rankLE l

/-- The value of `maxLeaders` when the loop of `Elect` starts, for a registry
of `n` candidates.  The product is the exact integer product: it is the value
Go computes as long as `n * percent` stays within 64 bits, which is the case
for every percentage between 0 and 100 and every slice that fits in memory;
theorems that depend on the value of the product assume that range. -/
def maxLeaders (percent : Int) (n : Nat) : Int :=
  let m0 : Int := Int.tdiv ((n : Int) * percent) 100
  let m1 : Int := if m0 = 0 then 1 else m0
  if (n : Int) < m1 then (n : Int) else m1

/-! ## Operations -/

/-- The method `Elect(as)`: the returned leaders and the state after the call
(the registry of `as` is left sorted). -/
def Elect (env : Env) (e : Election) (as : String) : List String × Election :=
  match lookupKey e.candidates as with
  | none => (readKey e.camera as, e)
  | some candidates =>
    let sorted := sortById candidates
    let leaders := (sorted.take (maxLeaders env.LeaderPercent sorted.length).toNat).map Candidate.Id
    (leaders, { e with candidates := storeKey e.candidates as sorted })

/-- The method `GetElected()`. -/
def GetElected (e : Election) : List String :=
  e.elected.foldl (fun allElected kv => allElected ++ kv.2) []

/-- The method `RemoveCandidate(toRemove)`. -/
def RemoveCandidate (env : Env) (e : Election) (toRemove : String) : Election :=
  let as := env.getAS toRemove
  let candidates := readKey e.candidates as
  let newCandidates := candidates.filter (fun candidate => candidate.Id ≠ toRemove)
  { e with candidates := storeKey e.candidates as newCandidates }

/-- The method `NewJoin(id)`. -/
def NewJoin (env : Env) (e : Election) (id : String) : Election :=
  let as := env.getAS id
  let camera1 := if (lookupKey e.camera as).isNone then storeKey e.camera as [] else e.camera
  { e with camera := storeKey camera1 as (readKey camera1 as ++ [id]) }

/-- The first loop of `RunElection`: for each visited partition, store what
`Elect` returns. -/
def electEach (env : Env) : List String → Election → Election
  | [], e => e
  | as :: rest, e =>
    let r := Elect env e as
    electEach env rest { r.2 with elected := storeKey r.2.elected as r.1 }

/-- The second loop of `RunElection`: the sends, in order. -/
def leaderSends (e : Election) : List (String × List String) :=
  e.camera.flatMap (fun kv => kv.2.map (fun node => (node, readKey e.elected kv.1)))

/-- The method `RunElection()`. -/
def RunElection (env : Env) (e : Election) : Election :=
  let e1 := electEach env (keysOf e.camera) e
  { e1 with sent := e1.sent ++ leaderSends e1, runs := e1.runs + 1 }

/-- The method `RegisterCandidate(candidate)`. -/
def RegisterCandidate (env : Env) (e : Election) (candidate : Candidate) : Election :=
  let e1 := { e with nodes := e.nodes + 1 }
  let as := env.getAS candidate.Id
  let candidates1 :=
    if (lookupKey e1.candidates as).isNone then storeKey e1.candidates as [] else e1.candidates
  let e2 := { e1 with candidates := storeKey candidates1 as (readKey candidates1 as ++ [candidate]) }
  let e3 := if e2.nodes = e2.limit then RunElection env e2 else e2
  if e3.nodes > e3.limit then
    let elected := match lookupKey e3.elected as with
      | some l => l
      | none => [candidate.Id]
    { e3 with sent := e3.sent ++ [(candidate.Id, elected)] }
  else e3

/-- The state of `RegisterCandidate` after its first half: the counter
incremented and the candidate appended to the registry of its partition
(the value of `e2` in `RegisterCandidate`). -/
def registered (env : Env) (e : Election) (candidate : Candidate) : Election :=
  let e1 := { e with nodes := e.nodes + 1 }
  let as := env.getAS candidate.Id
  let candidates1 :=
    if (lookupKey e1.candidates as).isNone then storeKey e1.candidates as [] else e1.candidates
  { e1 with candidates := storeKey candidates1 as (readKey candidates1 as ++ [candidate]) }

/-! ## Call sequences -/

/-- The calls a client makes on the engine. -/
inductive Call where
  | newJoin (id : String)
  | registerCandidate (candidate : Candidate)
  | removeCandidate (id : String)
  | getElected
deriving DecidableEq, Repr

/-- One call, as a state transition (`GetElected` only reads). -/
def step (env : Env) (e : Election) : Call → Election
  | Call.newJoin id => NewJoin env e id
  | Call.registerCandidate c => RegisterCandidate env e c
  | Call.removeCandidate id => RemoveCandidate env e id
  | Call.getElected => e

/-- A sequence of calls, one after the other. -/
def runCalls (env : Env) (e : Election) (calls : List Call) : Election :=
  calls.foldl (step env) e

/-- The number of `RegisterCandidate` calls in a sequence. -/
def registrations : List Call → Nat
  | [] => 0
  | Call.registerCandidate _ :: rest => registrations rest + 1
  | _ :: rest => registrations rest

/-! ## Sorting procedures -/

/-- The method `Elect(as)` with the sorting procedure `srt` in the place of
`sort.Sort(byId(candidates))`; `Elect` is the instance `srt = sortById`. -/
def ElectWith (srt : List Candidate → List Candidate) (env : Env) (e : Election)
    (as : String) : List String × Election :=
  match lookupKey e.candidates as with
  | none => (readKey e.camera as, e)
  | some candidates =>
    let sorted := srt candidates
    let leaders := (sorted.take (maxLeaders env.LeaderPercent sorted.length).toNat).map Candidate.Id
    (leaders, { e with candidates := storeKey e.candidates as sorted })

/-! ## Multi-layer composer (`multi_torrent/election.go`) -/

/-- The type `MultiElection`: the layers, in index order.  All layers are built
on one transport; the `sent` log of a layer holds the sends that layer made. -/
structure MultiElection where
  elections : List Election
deriving DecidableEq, Repr

/-- The constructor `NewMultiElection(elections, limit, transport)`: the loop
appends one fresh engine per index below `elections`. -/
def NewMultiElection (elections : Int) (limit : Int) : MultiElection :=
  { elections := List.replicate elections.toNat (NewElection limit) }

/-- The loop of `MultiElection.NewJoin` from index `i` on: layer `i` receives
`FullId(id, strconv.Itoa(i))`.  `FullId` is declared outside the files at hand
and is a parameter; `strconv.Itoa` is the decimal representation. -/
def joinLayers (env : Env) (FullId : String → String → String) (id : String) :
    Nat → List Election → List Election
  | _, [] => []
  | i, election :: rest =>
    CacheTorrent.NewJoin env election (FullId id (toString i))
      :: joinLayers env FullId id (i + 1) rest

/-- The method `MultiElection.NewJoin(id)`. -/
def MultiElection.NewJoin (env : Env) (FullId : String → String → String)
    (e : MultiElection) (id : String) : MultiElection :=
  { elections := joinLayers env FullId id 0 e.elections }

/-- The loop of `MultiElection.RegisterCandidate`: every layer receives the
candidate as it is. -/
def registerLayers (env : Env) (candidate : Candidate) : List Election → List Election
  | [] => []
  | election :: rest =>
    CacheTorrent.RegisterCandidate env election candidate :: registerLayers env candidate rest

/-- The method `MultiElection.RegisterCandidate(candidate)`. -/
def MultiElection.RegisterCandidate (env : Env) (e : MultiElection)
    (candidate : Candidate) : MultiElection :=
  { elections := registerLayers env candidate e.elections }

/-! ## Concrete inputs -/

/-- An environment for examples: the partition is the first character of the
identity, the leader percentage is 50. -/
def exEnv : Env := { getAS := fun id => id.take 1, LeaderPercent := 50 }

def cA1 : Candidate := { Id := "A1", Up := 10, Down := 0 }
def cA2 : Candidate := { Id := "A2", Up := 20, Down := 0 }
def cB1 : Candidate := { Id := "B1", Up := 5, Down := 7 }
def cB2 : Candidate := { Id := "B2", Up := 5, Down := 7 }

/-- A state in which `A1` joined, registered and was removed again: the registry
of partition `A` is empty, its membership list is not. -/
def exEmptied : Election :=
  runCalls exEnv (NewElection 10)
    [Call.newJoin "A1", Call.registerCandidate cA1, Call.removeCandidate "A1"]

/-- A state in which `A1` joined and nobody registered. -/
def exJoined : Election :=
  runCalls exEnv (NewElection 10) [Call.newJoin "A1"]

/-- A state of an engine with limit 1 in which `A1` joined and nobody registered. -/
def exJoinedAt1 : Election :=
  runCalls exEnv (NewElection 1) [Call.newJoin "A1"]

/-- A state in which the same candidate was registered twice. -/
def exTwice : Election :=
  runCalls exEnv (NewElection 10) [Call.registerCandidate cA1, Call.registerCandidate cA1]

/-- The example of the specification with limit 4 and 50 percent, the four nodes
having joined before they register. -/
def exElection4 : Election :=
  runCalls exEnv (NewElection 4)
    [Call.newJoin "A1", Call.newJoin "A2", Call.newJoin "B1", Call.newJoin "B2",
     Call.registerCandidate cA1, Call.registerCandidate cA2,
     Call.registerCandidate cB1, Call.registerCandidate cB2]

/-- The same four registrations with limit 4, nobody having joined. -/
def exUnjoined4 : Election :=
  runCalls exEnv (NewElection 4)
    [Call.registerCandidate cA1, Call.registerCandidate cA2,
     Call.registerCandidate cB1, Call.registerCandidate cB2]

/-- Calls before a quorum of 2 is reached: two joins and one registration. -/
def exBefore : List Call :=
  [Call.newJoin "A1", Call.newJoin "B1", Call.registerCandidate cA1]

/-- A state with two candidates registered in partition `A`, below the limit. -/
def exTwoA : Election :=
  runCalls exEnv (NewElection 10) [Call.registerCandidate cA1, Call.registerCandidate cA2]

/-- A state one registration short of a limit of 2, `A1` being a member. -/
def exBelow2 : Election :=
  runCalls exEnv (NewElection 2) [Call.newJoin "A1", Call.registerCandidate cA1]

/-- A state in which `B2` registered before `B1`, both with the same capacities. -/
def exLateB1 : Election :=
  runCalls exEnv (NewElection 10) [Call.registerCandidate cB2, Call.registerCandidate cB1]

/-- A state in which `B1` registered before `B2`. -/
def exEarlyB1 : Election :=
  runCalls exEnv (NewElection 10) [Call.registerCandidate cB1, Call.registerCandidate cB2]

/-- A layer-scoped identity for examples: the identity, a dot, the layer. -/
def exFullId (id : String) (layer : String) : String := id ++ "." ++ layer

/-- A composer of three layers with limit 2. -/
def exMulti : MultiElection := NewMultiElection 3 2

/-! ## Facts about maps -/

theorem lookupKey_storeKey_same {V : Type} (m : List (String × V)) (k : String) (v : V) :
    lookupKey (storeKey m k v) k = some v := by
  induction m with
  | nil => simp [storeKey, lookupKey]
  | cons p m ih =>
    obtain ⟨k1, v1⟩ := p
    by_cases h : k1 = k
    · simp [storeKey, lookupKey, h]
    · simp [storeKey, lookupKey, h, ih]

theorem lookupKey_storeKey_other {V : Type} (m : List (String × V)) (k k2 : String) (v : V)
    (h : k2 ≠ k) : lookupKey (storeKey m k v) k2 = lookupKey m k2 := by
  induction m with
  | nil =>
    have h2 : ¬ k = k2 := fun x => h x.symm
    simp [storeKey, lookupKey, h2]
  | cons p m ih =>
    obtain ⟨k1, v1⟩ := p
    by_cases h1 : k1 = k
    · subst h1
      have h2 : ¬ k1 = k2 := fun x => h x.symm
      simp [storeKey, lookupKey, h2]
    · by_cases h3 : k1 = k2
      · subst h3
        simp [storeKey, lookupKey, h1]
      · simp [storeKey, lookupKey, h1, h3, ih]

theorem storeKey_of_lookupKey {V : Type} (m : List (String × V)) (k : String) (v : V)
    (h : lookupKey m k = some v) : storeKey m k v = m := by
  induction m with
  | nil => simp [lookupKey] at h
  | cons p m ih =>
    obtain ⟨k1, v1⟩ := p
    by_cases h1 : k1 = k
    · subst h1
      simp [lookupKey] at h
      simp [storeKey, h]
    · simp [lookupKey, h1] at h
      simp [storeKey, h1, ih h]

theorem readKey_storeKey_same {V : Type} (m : List (String × List V)) (k : String) (v : List V) :
    readKey (storeKey m k v) k = v := by
  simp [readKey, lookupKey_storeKey_same]

theorem readKey_storeKey_other {V : Type} (m : List (String × List V)) (k k2 : String)
    (v : List V) (h : k2 ≠ k) : readKey (storeKey m k v) k2 = readKey m k2 := by
  simp [readKey, lookupKey_storeKey_other m k k2 v h]

theorem lookupKey_isSome_iff_mem_keysOf {V : Type} (m : List (String × V)) (k : String) :
    (lookupKey m k).isSome = true ↔ k ∈ keysOf m := by
  induction m with
  | nil => simp [lookupKey, keysOf]
  | cons p m ih =>
    obtain ⟨k1, v1⟩ := p
    by_cases h1 : k1 = k
    · simp [lookupKey, keysOf, h1]
    · have h2 : ¬ k = k1 := fun x => h1 x.symm
      simp only [keysOf] at ih
      simp [lookupKey, keysOf, h1, h2, ih]

/-! ## Facts about the ranking -/

theorem Less_iff (a b : Candidate) :
    Less a b = true ↔
      b.Up < a.Up ∨ (a.Up = b.Up ∧ (b.Down < a.Down ∨
        (a.Down = b.Down ∧ a.Id.toList < b.Id.toList))) := by
  unfold Less
  by_cases h1 : a.Up = b.Up
  · by_cases h2 : a.Down = b.Down
    · simp [h1, h2]
    · simp [h1, h2]
  · simp [h1]

theorem Less_irrefl (a : Candidate) : Less a a = false := by
  have h := Less_iff a a
  cases hl : Less a a with
  | false => rfl
  | true =>
    rw [hl] at h
    have h2 := h.mp rfl
    rcases h2 with h2 | ⟨_, h2 | ⟨_, h2⟩⟩
    · omega
    · omega
    · exact absurd h2 (lt_irrefl _)

theorem Less_trans (a b c : Candidate) (hab : Less a b = true) (hbc : Less b c = true) :
    Less a c = true := by
  rw [Less_iff] at hab hbc ⊢
  rcases hab with h | ⟨hu, h | ⟨hd, h⟩⟩ <;> rcases hbc with g | ⟨gu, g | ⟨gd, g⟩⟩
  · left; omega
  · left; omega
  · left; omega
  · left; omega
  · right; exact ⟨by omega, Or.inl (by omega)⟩
  · right; exact ⟨by omega, Or.inl (by omega)⟩
  · left; omega
  · right; exact ⟨by omega, Or.inl (by omega)⟩
  · right; exact ⟨by omega, Or.inr ⟨by omega, lt_trans h g⟩⟩

theorem Less_asymm (a b : Candidate) (hab : Less a b = true) : Less b a = false := by
  cases hba : Less b a with
  | false => rfl
  | true =>
    have h := Less_trans a b a hab hba
    rw [Less_irrefl] at h
    exact absurd h (by decide)

theorem Less_total (a b : Candidate) (hne : a ≠ b) : Less a b = true ∨ Less b a = true := by
  rw [Less_iff, Less_iff]
  rcases lt_trichotomy a.Up b.Up with h | h | h
  · right; left; exact h
  · rcases lt_trichotomy a.Down b.Down with g | g | g
    · right; right; exact ⟨h.symm, Or.inl g⟩
    · rcases lt_trichotomy a.Id.toList b.Id.toList with k | k | k
      · left; right; exact ⟨h, Or.inr ⟨g, k⟩⟩
      · exfalso
        apply hne
        cases a with
        | mk ai au ad =>
          cases b with
          | mk bi bu bd =>
            simp only at h g k
            have hk : ai = bi := String.toList_inj.mp k
            subst h g hk
            rfl
      · right; right; exact ⟨h.symm, Or.inr ⟨g.symm, k⟩⟩
    · left; right; exact ⟨h, Or.inl g⟩
  · left; left; exact h

theorem rankLE_total (a b : Candidate) : rankLE a b ∨ rankLE b a := by
  unfold rankLE
  cases h : Less b a with
  | false => exact Or.inl rfl
  | true => exact Or.inr (Less_asymm b a h)

theorem rankLE_antisymm (a b : Candidate) (hab : rankLE a b) (hba : rankLE b a) : a = b := by
  unfold rankLE at hab hba
  by_contra hne
  rcases Less_total a b hne with h | h
  · rw [h] at hba; exact absurd hba (by decide)
  · rw [h] at hab; exact absurd hab (by decide)

theorem rankLE_trans (a b c : Candidate) (hab : rankLE a b) (hbc : rankLE b c) : rankLE a c := by
  unfold rankLE at hab hbc ⊢
  cases hca : Less c a with
  | false => rfl
  | true =>
    exfalso
    by_cases hbe : b = a
    · subst hbe
      rw [hca] at hbc
      exact absurd hbc (by decide)
    · rcases Less_total b a hbe with h | h
      · rw [h] at hab; exact absurd hab (by decide)
      · have h2 := Less_trans c a b hca h
        rw [h2] at hbc
        exact absurd hbc (by decide)

theorem sortById_perm (l : List Candidate) : (sortById l).Perm l :=
  List.perm_insertionSort rankLE l

theorem sortById_sorted (l : List Candidate) : List.Sorted rankLE (sortById l) := by
  haveI : IsTotal Candidate rankLE := ⟨rankLE_total⟩
  haveI : IsTrans Candidate rankLE := ⟨rankLE_trans⟩
  exact List.sorted_insertionSort rankLE l

theorem sortById_unique (l s : List Candidate) (hp : s.Perm l) (hs : List.Sorted rankLE s) :
    s = sortById l := by
  haveI : IsAntisymm Candidate rankLE := ⟨rankLE_antisymm⟩
  exact List.eq_of_perm_of_sorted (hp.trans (sortById_perm l).symm) hs (sortById_sorted l)

theorem sortById_length (l : List Candidate) : (sortById l).length = l.length :=
  (sortById_perm l).length_eq

theorem sortById_idem (l : List Candidate) : sortById (sortById l) = sortById l :=
  (sortById_unique (sortById l) (sortById l) (List.Perm.refl _) (sortById_sorted l)).symm

/-! ## Facts about `Elect` -/

theorem maxLeaders_of_percent (f : Int) (n : Nat) (hn : 1 ≤ n) (h0 : 0 ≤ f) (h100 : f ≤ 100) :
    maxLeaders f n = max 1 ((n : Int) * f / 100) ∧ 1 ≤ maxLeaders f n ∧
      maxLeaders f n ≤ (n : Int) := by
  have hn0 : (0 : Int) ≤ (n : Int) := Int.ofNat_nonneg n
  have hp0 : 0 ≤ (n : Int) * f := mul_nonneg hn0 h0
  have hp1 : (n : Int) * f ≤ (n : Int) * 100 := mul_le_mul_of_nonneg_left h100 hn0
  unfold maxLeaders
  rw [Int.tdiv_eq_ediv hp0 (by decide)]
  generalize (n : Int) * f = p at hp0 hp1
  simp only
  have hn1 : (1 : Int) ≤ (n : Int) := by exact_mod_cast hn
  split_ifs <;> omega

theorem Elect_of_registry (env : Env) (e : Election) (as : String) (cands : List Candidate)
    (h : lookupKey e.candidates as = some cands) :
    (Elect env e as).1 =
      ((sortById cands).take (maxLeaders env.LeaderPercent cands.length).toNat).map
        Candidate.Id := by
  simp [Elect, h, sortById_length]

theorem Elect_of_no_registry (env : Env) (e : Election) (as : String)
    (h : lookupKey e.candidates as = none) :
    Elect env e as = (readKey e.camera as, e) := by
  simp [Elect, h]

/-- C1: for a partition whose registry holds `n ≥ 1` candidates and a leader
percentage between 0 and 100, `Elect` returns exactly
`max 1 (floor (n * percent / 100))` identities, and that number is at most `n`. -/
theorem Elect_quorum_size (env : Env) (e : Election) (as : String) (cands : List Candidate)
    (hreg : lookupKey e.candidates as = some cands) (hn : 1 ≤ cands.length)
    (h0 : 0 ≤ env.LeaderPercent) (h100 : env.LeaderPercent ≤ 100) :
    (((Elect env e as).1.length : Nat) : Int)
        = max 1 ((cands.length : Int) * env.LeaderPercent / 100) ∧
      (Elect env e as).1.length ≤ cands.length := by
  obtain ⟨hm, h1, hle⟩ := maxLeaders_of_percent env.LeaderPercent cands.length hn h0 h100
  rw [Elect_of_registry env e as cands hreg, List.length_map, List.length_take,
    sortById_length, ← hm]
  omega

/-- Witness C1: a registry of two candidates at 50 percent elects one leader. -/
theorem Elect_quorum_size_witness :
    (((Elect exEnv exTwoA "A").1.length : Nat) : Int)
        = max 1 ((([cA1, cA2] : List Candidate).length : Int) * exEnv.LeaderPercent / 100) ∧
      (Elect exEnv exTwoA "A").1.length ≤ ([cA1, cA2] : List Candidate).length :=
  Elect_quorum_size exEnv exTwoA "A" [cA1, cA2] (by decide) (by decide) (by decide) (by decide)

theorem rankLE_iff_rankedBefore (a b : Candidate) : rankLE a b ↔ rankedBefore a b := by
  unfold rankLE rankedBefore
  have h := Less_iff b a
  constructor
  · intro hl
    rw [hl] at h
    have h2 : ¬ (a.Up < b.Up ∨ (b.Up = a.Up ∧ (a.Down < b.Down ∨
        (b.Down = a.Down ∧ b.Id.toList < a.Id.toList)))) := fun x => by
      have := h.mpr x
      exact absurd this (by decide)
    rcases lt_trichotomy a.Up b.Up with g | g | g
    · exact absurd (Or.inl g) h2
    · rcases lt_trichotomy a.Down b.Down with k | k | k
      · exact absurd (Or.inr ⟨g.symm, Or.inl k⟩) h2
      · refine Or.inr ⟨g, Or.inr ⟨k, ?_⟩⟩
        exact not_lt.mp (fun x => h2 (Or.inr ⟨g.symm, Or.inr ⟨k.symm, x⟩⟩))
      · exact Or.inr ⟨g, Or.inl k⟩
    · exact Or.inl g
  · intro hr
    cases hl : Less b a with
    | false => rfl
    | true =>
      exfalso
      rw [hl] at h
      have h2 := h.mp rfl
      rcases hr with r | ⟨ru, r | ⟨rd, r⟩⟩ <;> rcases h2 with g | ⟨gu, g | ⟨gd, g⟩⟩
      · omega
      · omega
      · omega
      · omega
      · omega
      · omega
      · omega
      · omega
      · exact absurd g (not_lt.mpr r)

theorem rankLE_upload (a b : Candidate) (h : rankLE a b) : b.Up ≤ a.Up := by
  rcases (rankLE_iff_rankedBefore a b).mp h with r | ⟨ru, _⟩
  · omega
  · omega

/-- C2: for a partition with a registry, `Elect` returns the identities of the
first `k` candidates of the registry sorted by (upload descending, download
descending, identity ascending), `k` the quorum size: the sorted arrangement
`s` exists and is unique, every elected identity is that of a registered
candidate, and every elected candidate has upload capacity at least that of
every candidate left out. -/
theorem Elect_top_ranked (env : Env) (e : Election) (as : String) (cands : List Candidate)
    (hreg : lookupKey e.candidates as = some cands) :
    ∃ s : List Candidate,
      s.Perm cands ∧ List.Pairwise rankedBefore s ∧
      (∀ t : List Candidate, t.Perm cands → List.Pairwise rankedBefore t → t = s) ∧
      (Elect env e as).1
        = (s.take (maxLeaders env.LeaderPercent cands.length).toNat).map Candidate.Id ∧
      (∀ id ∈ (Elect env e as).1, ∃ c ∈ cands, c.Id = id) ∧
      (∀ c ∈ s.take (maxLeaders env.LeaderPercent cands.length).toNat,
        ∀ d ∈ s.drop (maxLeaders env.LeaderPercent cands.length).toNat, d.Up ≤ c.Up) := by
  have hsorted := sortById_sorted cands
  refine ⟨sortById cands, sortById_perm cands, ?_, ?_, Elect_of_registry env e as cands hreg,
    ?_, ?_⟩
  · exact hsorted.imp (fun {a b} h => (rankLE_iff_rankedBefore a b).mp h)
  · intro t hp ht
    exact sortById_unique cands t hp (ht.imp (fun {a b} h => (rankLE_iff_rankedBefore a b).mpr h))
  · intro id hid
    rw [Elect_of_registry env e as cands hreg, List.mem_map] at hid
    obtain ⟨c, hc, hcid⟩ := hid
    exact ⟨c, (sortById_perm cands).subset (List.mem_of_mem_take hc), hcid⟩
  · intro c hc d hd
    have hsplit : List.Pairwise rankLE
        ((sortById cands).take (maxLeaders env.LeaderPercent cands.length).toNat ++
          (sortById cands).drop (maxLeaders env.LeaderPercent cands.length).toNat) := by
      rw [List.take_append_drop]
      exact hsorted
    exact rankLE_upload c d ((List.pairwise_append.mp hsplit).2.2 c hc d hd)

/-- Witness C2: the registry `[A1, A2]` of the example state. -/
theorem Elect_top_ranked_witness :
    ∃ s : List Candidate,
      s.Perm [cA1, cA2] ∧ List.Pairwise rankedBefore s ∧
      (∀ t : List Candidate, t.Perm [cA1, cA2] → List.Pairwise rankedBefore t → t = s) ∧
      (Elect exEnv exTwoA "A").1
        = (s.take (maxLeaders exEnv.LeaderPercent
            ([cA1, cA2] : List Candidate).length).toNat).map Candidate.Id ∧
      (∀ id ∈ (Elect exEnv exTwoA "A").1, ∃ c ∈ [cA1, cA2], c.Id = id) ∧
      (∀ c ∈ s.take (maxLeaders exEnv.LeaderPercent ([cA1, cA2] : List Candidate).length).toNat,
        ∀ d ∈ s.drop (maxLeaders exEnv.LeaderPercent ([cA1, cA2] : List Candidate).length).toNat,
          d.Up ≤ c.Up) :=
  Elect_top_ranked exEnv exTwoA "A" [cA1, cA2] (by decide)

/-- C3: evaluation at the failing input.  After `A1` joined, registered and was
removed, the registry of partition `A` is empty and its membership list is
`["A1"]`, yet `Elect` returns no leader; the same happens when the registry was
first touched by `RemoveCandidate`. -/
theorem Elect_emptied_registry :
    readKey exEmptied.candidates "A" = [] ∧ readKey exEmptied.camera "A" = ["A1"] ∧
      (Elect exEnv exEmptied "A").1 = [] ∧
      readKey (RemoveCandidate exEnv exJoined "A2").candidates "A" = [] ∧
      readKey (RemoveCandidate exEnv exJoined "A2").camera "A" = ["A1"] ∧
      (Elect exEnv (RemoveCandidate exEnv exJoined "A2") "A").1 = [] := by
  decide

/-! ## Facts about `RemoveCandidate` -/

theorem filter_eq_self_of_absent (l : List Candidate) (id : String)
    (h : ∀ c ∈ l, c.Id ≠ id) : l.filter (fun c => c.Id ≠ id) = l := by
  rw [List.filter_eq_self]
  intro c hc
  simpa using h c hc

theorem GetElected_congr (e1 e2 : Election) (h : e1.elected = e2.elected) :
    GetElected e1 = GetElected e2 := by
  simp [GetElected, h]

/-- C4, counterexample: in the state where `A1` joined and nobody registered,
`A2` matches no candidate, yet `RemoveCandidate` changes the state (the registry
map gains the key `A`) and a later `Elect` returns `[]` instead of `["A1"]`.
With limit 1 the registration of `B1` that follows runs the election, and
`GetElected` then returns `[]` where it returns `["A1"]` without the removal. -/
theorem RemoveCandidate_absent_changes_state :
    (∀ c ∈ readKey exJoined.candidates (exEnv.getAS "A2"), c.Id ≠ "A2") ∧
      RemoveCandidate exEnv exJoined "A2" ≠ exJoined ∧
      keysOf (RemoveCandidate exEnv exJoined "A2").candidates ≠ keysOf exJoined.candidates ∧
      (Elect exEnv (RemoveCandidate exEnv exJoined "A2") "A").1 ≠ (Elect exEnv exJoined "A").1 ∧
      (∀ c ∈ readKey exJoinedAt1.candidates (exEnv.getAS "A2"), c.Id ≠ "A2") ∧
      GetElected (RegisterCandidate exEnv (RemoveCandidate exEnv exJoinedAt1 "A2") cB1) = [] ∧
      GetElected (RegisterCandidate exEnv exJoinedAt1 cB1) = ["A1"] := by
  decide

/-- C4, amended: when `id` matches no candidate in the registry of its partition,
`RemoveCandidate` leaves the counter, the limit, the membership map, the elected
map, the send log and the content of every registry unchanged; a partition
without a registry entry gains an empty one, and when the partition already has
an entry the whole state is unchanged.  On the resulting state `Elect` returns
for every other partition what it returns on the previous state. -/
theorem RemoveCandidate_absent (env : Env) (e : Election) (id : String)
    (habs : ∀ c ∈ readKey e.candidates (env.getAS id), c.Id ≠ id) :
    (RemoveCandidate env e id).nodes = e.nodes ∧
      (RemoveCandidate env e id).limit = e.limit ∧
      (RemoveCandidate env e id).camera = e.camera ∧
      (RemoveCandidate env e id).elected = e.elected ∧
      (RemoveCandidate env e id).sent = e.sent ∧
      (RemoveCandidate env e id).runs = e.runs ∧
      (∀ as, readKey (RemoveCandidate env e id).candidates as = readKey e.candidates as) ∧
      (∀ as, as ≠ env.getAS id →
        lookupKey (RemoveCandidate env e id).candidates as = lookupKey e.candidates as) ∧
      (lookupKey e.candidates (env.getAS id) = none →
        lookupKey (RemoveCandidate env e id).candidates (env.getAS id) = some []) ∧
      ((lookupKey e.candidates (env.getAS id)).isSome = true → RemoveCandidate env e id = e) ∧
      (∀ as, as ≠ env.getAS id →
        (Elect env (RemoveCandidate env e id) as).1 = (Elect env e as).1) := by
  have hf := filter_eq_self_of_absent _ id habs
  have hother : ∀ as, as ≠ env.getAS id →
      lookupKey (RemoveCandidate env e id).candidates as = lookupKey e.candidates as := by
    intro as h
    simp only [RemoveCandidate]
    rw [lookupKey_storeKey_other _ _ _ _ h]
  refine ⟨rfl, rfl, rfl, rfl, rfl, rfl, ?_, hother, ?_, ?_, ?_⟩
  · intro as
    by_cases h : as = env.getAS id
    · subst h
      simp only [RemoveCandidate]
      rw [readKey_storeKey_same, hf]
    · simp only [RemoveCandidate]
      rw [readKey_storeKey_other _ _ _ _ h]
  · intro hnone
    simp only [RemoveCandidate]
    rw [lookupKey_storeKey_same]
    simp [readKey, hnone]
  · intro hsome
    obtain ⟨cands, hc⟩ := Option.isSome_iff_exists.mp hsome
    have hr : readKey e.candidates (env.getAS id) = cands := by simp [readKey, hc]
    simp only [RemoveCandidate]
    rw [hf, hr, storeKey_of_lookupKey _ _ _ hc]
  · intro as h
    have hl := hother as h
    cases hc : lookupKey e.candidates as with
    | none =>
      rw [hc] at hl
      rw [Elect_of_no_registry env _ as hl, Elect_of_no_registry env e as hc]
      rfl
    | some cands =>
      rw [hc] at hl
      rw [Elect_of_registry env _ as cands hl, Elect_of_registry env e as cands hc]

/-- Witness C4: in the state with `A1` and `A2` registered, `A3` matches nobody. -/
theorem RemoveCandidate_absent_witness :
    (RemoveCandidate exEnv exTwoA "A3").nodes = exTwoA.nodes ∧
      (RemoveCandidate exEnv exTwoA "A3").limit = exTwoA.limit ∧
      (RemoveCandidate exEnv exTwoA "A3").camera = exTwoA.camera ∧
      (RemoveCandidate exEnv exTwoA "A3").elected = exTwoA.elected ∧
      (RemoveCandidate exEnv exTwoA "A3").sent = exTwoA.sent ∧
      (RemoveCandidate exEnv exTwoA "A3").runs = exTwoA.runs ∧
      (∀ as, readKey (RemoveCandidate exEnv exTwoA "A3").candidates as
        = readKey exTwoA.candidates as) ∧
      (∀ as, as ≠ exEnv.getAS "A3" →
        lookupKey (RemoveCandidate exEnv exTwoA "A3").candidates as
          = lookupKey exTwoA.candidates as) ∧
      (lookupKey exTwoA.candidates (exEnv.getAS "A3") = none →
        lookupKey (RemoveCandidate exEnv exTwoA "A3").candidates (exEnv.getAS "A3") = some []) ∧
      ((lookupKey exTwoA.candidates (exEnv.getAS "A3")).isSome = true →
        RemoveCandidate exEnv exTwoA "A3" = exTwoA) ∧
      (∀ as, as ≠ exEnv.getAS "A3" →
        (Elect exEnv (RemoveCandidate exEnv exTwoA "A3") as).1 = (Elect exEnv exTwoA as).1) :=
  RemoveCandidate_absent exEnv exTwoA "A3" (by decide)

/-- C5, counterexample: when the same candidate was registered twice, one
`RemoveCandidate` call removes both entries, not at most one. -/
theorem RemoveCandidate_removes_two :
    (readKey exTwice.candidates (exEnv.getAS "A1")).length = 2 ∧
      (readKey (RemoveCandidate exEnv exTwice "A1").candidates (exEnv.getAS "A1")).length = 0 := by
  decide

/-- C5, amended: after `RemoveCandidate(id)` the registry of the partition of
`id` is the previous registry without the entries whose identity is `id` (every
such entry is removed, so at most one when at most one matches), the other
candidates keep their relative order, and the counter, the limit, the elected
map, the membership map, the registries of all other partitions and the send
log are unchanged. -/
theorem RemoveCandidate_effect (env : Env) (e : Election) (id : String) :
    readKey (RemoveCandidate env e id).candidates (env.getAS id)
        = (readKey e.candidates (env.getAS id)).filter (fun c => c.Id ≠ id) ∧
      List.Sublist (readKey (RemoveCandidate env e id).candidates (env.getAS id))
        (readKey e.candidates (env.getAS id)) ∧
      (∀ c, c ∈ readKey (RemoveCandidate env e id).candidates (env.getAS id) ↔
        c ∈ readKey e.candidates (env.getAS id) ∧ c.Id ≠ id) ∧
      (readKey e.candidates (env.getAS id)).length
        = (readKey (RemoveCandidate env e id).candidates (env.getAS id)).length
          + (readKey e.candidates (env.getAS id)).countP (fun c => c.Id = id) ∧
      (∀ as, as ≠ env.getAS id →
        lookupKey (RemoveCandidate env e id).candidates as = lookupKey e.candidates as) ∧
      (RemoveCandidate env e id).nodes = e.nodes ∧
      (RemoveCandidate env e id).limit = e.limit ∧
      (RemoveCandidate env e id).elected = e.elected ∧
      (RemoveCandidate env e id).camera = e.camera ∧
      (RemoveCandidate env e id).sent = e.sent ∧
      (RemoveCandidate env e id).runs = e.runs := by
  have hread : readKey (RemoveCandidate env e id).candidates (env.getAS id)
      = (readKey e.candidates (env.getAS id)).filter (fun c => c.Id ≠ id) := by
    simp only [RemoveCandidate]
    rw [readKey_storeKey_same]
  refine ⟨hread, ?_, ?_, ?_, ?_, rfl, rfl, rfl, rfl, rfl, rfl⟩
  · rw [hread]
    exact List.filter_sublist _
  · intro c
    rw [hread, List.mem_filter]
    simp
  · rw [hread]
    have h := List.length_eq_countP_add_countP (fun c : Candidate => decide (c.Id = id))
      (readKey e.candidates (env.getAS id))
    rw [List.countP_eq_length_filter (fun c : Candidate => decide ¬ decide (c.Id = id) = true)] at h
    have hfun : (fun c : Candidate => decide ¬ decide (c.Id = id) = true)
        = (fun c : Candidate => decide (c.Id ≠ id)) := by
      funext c
      simp
    rw [hfun] at h
    omega
  · intro as h
    simp only [RemoveCandidate]
    rw [lookupKey_storeKey_other _ _ _ _ h]

/-! ## Frame facts for the election -/

theorem Elect_frame (env : Env) (e : Election) (as : String) :
    (Elect env e as).2.nodes = e.nodes ∧ (Elect env e as).2.limit = e.limit ∧
      (Elect env e as).2.camera = e.camera ∧ (Elect env e as).2.elected = e.elected ∧
      (Elect env e as).2.sent = e.sent ∧ (Elect env e as).2.runs = e.runs := by
  unfold Elect
  cases lookupKey e.candidates as <;> simp

theorem electEach_frame (env : Env) (ks : List String) (e : Election) :
    (electEach env ks e).nodes = e.nodes ∧ (electEach env ks e).limit = e.limit ∧
      (electEach env ks e).camera = e.camera ∧ (electEach env ks e).sent = e.sent ∧
      (electEach env ks e).runs = e.runs := by
  induction ks generalizing e with
  | nil => simp [electEach]
  | cons k ks ih =>
    obtain ⟨h1, h2, h3, _, h5, h6⟩ := Elect_frame env e k
    simp only [electEach]
    obtain ⟨g1, g2, g3, g4, g5⟩ :=
      ih { (Elect env e k).2 with elected := storeKey (Elect env e k).2.elected k (Elect env e k).1 }
    rw [g1, g2, g3, g4, g5]
    exact ⟨h1, h2, h3, h5, h6⟩

theorem RunElection_frame (env : Env) (e : Election) :
    (RunElection env e).nodes = e.nodes ∧ (RunElection env e).limit = e.limit ∧
      (RunElection env e).camera = e.camera ∧ (RunElection env e).runs = e.runs + 1 ∧
      (RunElection env e).elected = (electEach env (keysOf e.camera) e).elected ∧
      (RunElection env e).candidates = (electEach env (keysOf e.camera) e).candidates := by
  obtain ⟨g1, g2, g3, _, g5⟩ := electEach_frame env (keysOf e.camera) e
  refine ⟨?_, ?_, ?_, ?_, ?_, ?_⟩ <;> simp [RunElection, g1, g2, g3, g5]

theorem registered_frame (env : Env) (e : Election) (c : Candidate) :
    (registered env e c).nodes = e.nodes + 1 ∧ (registered env e c).limit = e.limit ∧
      (registered env e c).camera = e.camera ∧ (registered env e c).elected = e.elected ∧
      (registered env e c).sent = e.sent ∧ (registered env e c).runs = e.runs := by
  simp [registered]

theorem RegisterCandidate_eq (env : Env) (e : Election) (c : Candidate) :
    RegisterCandidate env e c =
      if e.nodes + 1 = e.limit then RunElection env (registered env e c)
      else if e.limit < e.nodes + 1 then
        { registered env e c with
          sent := e.sent ++ [(c.Id, match lookupKey e.elected (env.getAS c.Id) with
            | some l => l
            | none => [c.Id])] }
      else registered env e c := by
  obtain ⟨h1, h2, h3, h4, h5, h6⟩ := registered_frame env e c
  obtain ⟨r1, r2, _⟩ := RunElection_frame env (registered env e c)
  have hunfold : RegisterCandidate env e c =
      (if (if (registered env e c).nodes = (registered env e c).limit
            then RunElection env (registered env e c) else registered env e c).nodes
          > (if (registered env e c).nodes = (registered env e c).limit
            then RunElection env (registered env e c) else registered env e c).limit
       then
        { (if (registered env e c).nodes = (registered env e c).limit
            then RunElection env (registered env e c) else registered env e c) with
          sent := (if (registered env e c).nodes = (registered env e c).limit
            then RunElection env (registered env e c) else registered env e c).sent
            ++ [(c.Id, match lookupKey (if (registered env e c).nodes = (registered env e c).limit
                  then RunElection env (registered env e c)
                  else registered env e c).elected (env.getAS c.Id) with
              | some l => l
              | none => [c.Id])] }
       else (if (registered env e c).nodes = (registered env e c).limit
            then RunElection env (registered env e c) else registered env e c)) := rfl
  rw [hunfold, h1, h2]
  by_cases hlim : e.nodes + 1 = e.limit
  · rw [if_pos hlim, if_pos hlim, r1, r2, h1, h2, if_neg (by omega)]
  · rw [if_neg hlim, if_neg hlim, h1, h2]
    by_cases hgt : e.limit < e.nodes + 1
    · rw [if_pos hgt, if_pos hgt, h4, h5]
    · rw [if_neg hgt, if_neg hgt]

theorem RegisterCandidate_nodes (env : Env) (e : Election) (c : Candidate) :
    (RegisterCandidate env e c).nodes = e.nodes + 1 ∧
      (RegisterCandidate env e c).limit = e.limit := by
  obtain ⟨h1, h2, _⟩ := registered_frame env e c
  obtain ⟨r1, r2, _⟩ := RunElection_frame env (registered env e c)
  rw [RegisterCandidate_eq]
  split_ifs
  · rw [r1, r2]; exact ⟨h1, h2⟩
  · exact ⟨h1, h2⟩
  · exact ⟨h1, h2⟩

theorem RegisterCandidate_runs (env : Env) (e : Election) (c : Candidate) :
    (RegisterCandidate env e c).runs = e.runs + (if e.nodes + 1 = e.limit then 1 else 0) := by
  obtain ⟨_, _, _, _, _, h6⟩ := registered_frame env e c
  obtain ⟨_, _, _, r4, _⟩ := RunElection_frame env (registered env e c)
  rw [RegisterCandidate_eq]
  split_ifs
  · rw [r4, h6]
  · exact h6
  · exact h6

theorem RegisterCandidate_elected_of_ne (env : Env) (e : Election) (c : Candidate)
    (h : e.nodes + 1 ≠ e.limit) :
    (RegisterCandidate env e c).elected = e.elected ∧
      (RegisterCandidate env e c).camera = e.camera := by
  obtain ⟨_, _, h3, h4, _, _⟩ := registered_frame env e c
  rw [RegisterCandidate_eq, if_neg h]
  split_ifs
  · exact ⟨h4, h3⟩
  · exact ⟨h4, h3⟩

theorem step_nodes (env : Env) (e : Election) (call : Call) :
    (step env e call).limit = e.limit ∧
      (step env e call).nodes
        = e.nodes + (match call with | Call.registerCandidate _ => 1 | _ => 0) := by
  cases call with
  | newJoin id => simp [step, NewJoin]
  | registerCandidate c => simp [step, RegisterCandidate_nodes]
  | removeCandidate id => simp [step, RemoveCandidate]
  | getElected => simp [step]

/-! ## Call sequences from a fresh engine -/

theorem runCalls_snoc (env : Env) (e : Election) (pre : List Call) (call : Call) :
    runCalls env e (pre ++ [call]) = step env (runCalls env e pre) call := by
  simp [runCalls, List.foldl_append]

theorem registrations_snoc (pre : List Call) (call : Call) :
    registrations (pre ++ [call])
      = registrations pre + (match call with | Call.registerCandidate _ => 1 | _ => 0) := by
  induction pre with
  | nil => cases call <;> simp [registrations]
  | cons a pre ih =>
    cases a <;> simp [registrations, ih]
    omega

theorem runCalls_nodes (env : Env) (e : Election) (calls : List Call) :
    (runCalls env e calls).limit = e.limit ∧
      (runCalls env e calls).nodes = e.nodes + (registrations calls : Int) := by
  induction calls using List.reverseRecOn with
  | nil => simp [runCalls, registrations]
  | append_singleton pre call ih =>
    obtain ⟨h1, h2⟩ := step_nodes env (runCalls env e pre) call
    rw [runCalls_snoc, registrations_snoc, h1, h2, ih.1, ih.2]
    cases call <;> simp
    omega

theorem step_runs (env : Env) (e : Election) (call : Call) :
    (step env e call).runs
      = e.runs + (match call with
        | Call.registerCandidate _ => if e.nodes + 1 = e.limit then 1 else 0
        | _ => 0) := by
  cases call with
  | newJoin id => simp [step, NewJoin]
  | registerCandidate c => simp [step, RegisterCandidate_runs]
  | removeCandidate id => simp [step, RemoveCandidate]
  | getElected => simp [step]

theorem runCalls_runs (env : Env) (limit : Int) (hl : 1 ≤ limit) (calls : List Call) :
    (runCalls env (NewElection limit) calls).runs
      = if limit ≤ (registrations calls : Int) then 1 else 0 := by
  induction calls using List.reverseRecOn with
  | nil =>
    have h : ¬ limit ≤ ((registrations [] : Nat) : Int) := by
      simp [registrations]; omega
    rw [if_neg h]
    rfl
  | append_singleton pre call ih =>
    obtain ⟨h1, h2⟩ := runCalls_nodes env (NewElection limit) pre
    have h3 : (NewElection limit).limit = limit := rfl
    have h4 : (NewElection limit).nodes = 0 := rfl
    rw [runCalls_snoc, step_runs, ih, registrations_snoc, h1, h2, h3, h4]
    cases call <;> simp
    split_ifs <;> omega

/-- C6: from a fresh engine with `limit ≥ 1`, in every sequence of `NewJoin`,
`RegisterCandidate`, `RemoveCandidate` (and `GetElected`) calls, `RunElection`
is invoked during a call exactly when that call is the `limit`-th
`RegisterCandidate`; so it has run once after every sequence that contains at
least `limit` registrations and not at all after any shorter one. -/
theorem election_fires_at_limit (env : Env) (limit : Int) (hl : 1 ≤ limit)
    (pre : List Call) (call : Call) :
    ((step env (runCalls env (NewElection limit) pre) call).runs
          = (runCalls env (NewElection limit) pre).runs + 1 ↔
        (∃ c, call = Call.registerCandidate c) ∧ (registrations pre : Int) + 1 = limit) ∧
      ((step env (runCalls env (NewElection limit) pre) call).runs
          = (runCalls env (NewElection limit) pre).runs ↔
        ¬ ((∃ c, call = Call.registerCandidate c) ∧ (registrations pre : Int) + 1 = limit)) ∧
      (runCalls env (NewElection limit) (pre ++ [call])).runs
        = (if limit ≤ (registrations (pre ++ [call]) : Int) then 1 else 0) := by
  obtain ⟨h1, h2⟩ := runCalls_nodes env (NewElection limit) pre
  have h3 : (NewElection limit).limit = limit := rfl
  have h4 : (NewElection limit).nodes = 0 := rfl
  refine ⟨?_, ?_, runCalls_runs env limit hl (pre ++ [call])⟩
  · rw [step_runs, h1, h2, h3, h4]
    cases call <;> simp
  · rw [step_runs, h1, h2, h3, h4]
    cases call <;> simp

/-- Witness C6: limit 1, the registration after one join. -/
theorem election_fires_at_limit_witness :
    ((step exEnv (runCalls exEnv (NewElection 1) [Call.newJoin "A1"])
            (Call.registerCandidate cA1)).runs
          = (runCalls exEnv (NewElection 1) [Call.newJoin "A1"]).runs + 1 ↔
        (∃ c, Call.registerCandidate cA1 = Call.registerCandidate c) ∧
          (registrations [Call.newJoin "A1"] : Int) + 1 = 1) ∧
      ((step exEnv (runCalls exEnv (NewElection 1) [Call.newJoin "A1"])
            (Call.registerCandidate cA1)).runs
          = (runCalls exEnv (NewElection 1) [Call.newJoin "A1"]).runs ↔
        ¬ ((∃ c, Call.registerCandidate cA1 = Call.registerCandidate c) ∧
          (registrations [Call.newJoin "A1"] : Int) + 1 = 1)) ∧
      (runCalls exEnv (NewElection 1)
          ([Call.newJoin "A1"] ++ [Call.registerCandidate cA1])).runs
        = (if (1 : Int) ≤ (registrations ([Call.newJoin "A1"] ++ [Call.registerCandidate cA1]) : Int)
            then 1 else 0) :=
  election_fires_at_limit exEnv 1 (by decide) [Call.newJoin "A1"] (Call.registerCandidate cA1)

/-! ## What `RunElection` stores -/

theorem Elect_leaders_congr (env : Env) (e0 e : Election) (as : String)
    (hcam : e.camera = e0.camera)
    (hv : lookupKey e.candidates as = lookupKey e0.candidates as ∨
      lookupKey e.candidates as = (lookupKey e0.candidates as).map sortById) :
    (Elect env e as).1 = (Elect env e0 as).1 := by
  cases h0 : lookupKey e0.candidates as with
  | none =>
    have h : lookupKey e.candidates as = none := by
      rcases hv with h | h <;> simpa [h0] using h
    rw [Elect_of_no_registry env e as h, Elect_of_no_registry env e0 as h0, hcam]
  | some cands =>
    rw [Elect_of_registry env e0 as cands h0]
    rcases hv with h | h
    · rw [h0] at h
      rw [Elect_of_registry env e as cands h]
    · rw [h0] at h
      rw [Elect_of_registry env e as (sortById cands) h, sortById_idem, sortById_length]

theorem Elect_registry_variant (env : Env) (e : Election) (as p : String) :
    lookupKey (Elect env e as).2.candidates p = lookupKey e.candidates p ∨
      lookupKey (Elect env e as).2.candidates p = (lookupKey e.candidates p).map sortById := by
  unfold Elect
  cases h : lookupKey e.candidates as with
  | none => exact Or.inl rfl
  | some cands =>
    by_cases hp : p = as
    · subst hp
      right
      simp [lookupKey_storeKey_same, h]
    · left
      simp [lookupKey_storeKey_other _ _ _ _ hp]

theorem variant_trans (a b c : Option (List Candidate))
    (hab : b = a ∨ b = a.map sortById) (hbc : c = b ∨ c = b.map sortById) :
    c = a ∨ c = a.map sortById := by
  rcases hab with h | h <;> rcases hbc with g | g
  · left; rw [g, h]
  · right; rw [g, h]
  · right; rw [g, h]
  · right
    rw [g, h]
    cases a with
    | none => rfl
    | some l => simp [sortById_idem]

theorem electEach_spec (env : Env) (e0 : Election) (ks : List String) (e : Election)
    (hcam : e.camera = e0.camera)
    (hv : ∀ p, lookupKey e.candidates p = lookupKey e0.candidates p ∨
      lookupKey e.candidates p = (lookupKey e0.candidates p).map sortById) :
    (∀ as, as ∈ ks → lookupKey (electEach env ks e).elected as = some (Elect env e0 as).1) ∧
      (∀ as, as ∉ ks → lookupKey (electEach env ks e).elected as = lookupKey e.elected as) ∧
      (∀ p, lookupKey (electEach env ks e).candidates p = lookupKey e0.candidates p ∨
        lookupKey (electEach env ks e).candidates p
          = (lookupKey e0.candidates p).map sortById) := by
  induction ks generalizing e with
  | nil =>
    refine ⟨?_, ?_, ?_⟩
    · intro as h
      simp at h
    · intro as _
      rfl
    · exact hv
  | cons k ks ih =>
    obtain ⟨_, _, f3, f4, _, _⟩ := Elect_frame env e k
    have hcam1 : ({ (Elect env e k).2 with
        elected := storeKey (Elect env e k).2.elected k (Elect env e k).1 } : Election).camera
        = e0.camera := by
      show (Elect env e k).2.camera = e0.camera
      rw [f3, hcam]
    have hv1 : ∀ p, lookupKey ({ (Elect env e k).2 with
        elected := storeKey (Elect env e k).2.elected k (Elect env e k).1 } : Election).candidates p
          = lookupKey e0.candidates p ∨
        lookupKey ({ (Elect env e k).2 with
          elected := storeKey (Elect env e k).2.elected k (Elect env e k).1 } : Election).candidates p
          = (lookupKey e0.candidates p).map sortById := by
      intro p
      exact variant_trans _ _ _ (hv p) (Elect_registry_variant env e k p)
    obtain ⟨i1, i2, i3⟩ := ih _ hcam1 hv1
    have hk : (Elect env e k).1 = (Elect env e0 k).1 := Elect_leaders_congr env e0 e k hcam (hv k)
    simp only [electEach]
    refine ⟨?_, ?_, i3⟩
    · intro as has
      by_cases hin : as ∈ ks
      · exact i1 as hin
      · have hask : as = k := by
          rcases List.mem_cons.mp has with h | h
          · exact h
          · exact absurd h hin
        subst hask
        rw [i2 as hin]
        show lookupKey (storeKey (Elect env e as).2.elected as (Elect env e as).1) as = _
        rw [lookupKey_storeKey_same, hk]
    · intro as has
      have hne : as ≠ k := fun h => has (by rw [h]; exact List.mem_cons_self _ _)
      have hin : as ∉ ks := fun h => has (List.mem_cons_of_mem _ h)
      rw [i2 as hin]
      show lookupKey (storeKey (Elect env e k).2.elected k (Elect env e k).1) as = _
      rw [lookupKey_storeKey_other _ _ _ _ hne, f4]

theorem RunElection_spec (env : Env) (e : Election) :
    (∀ as, as ∈ keysOf e.camera →
        lookupKey (RunElection env e).elected as = some (Elect env e as).1) ∧
      (∀ as, as ∉ keysOf e.camera →
        lookupKey (RunElection env e).elected as = lookupKey e.elected as) ∧
      (∀ p, lookupKey (RunElection env e).candidates p = lookupKey e.candidates p ∨
        lookupKey (RunElection env e).candidates p = (lookupKey e.candidates p).map sortById) := by
  obtain ⟨_, _, _, _, r5, r6⟩ := RunElection_frame env e
  rw [r5, r6]
  exact electEach_spec env e (keysOf e.camera) e rfl (fun _ => Or.inl rfl)

/-- C8, counterexample: with limit 4 and 50 percent, registering `A1`, `A2`, `B1`
and `B2` without any join runs the election once, and although partitions `A`
and `B` each hold two registered candidates the elected map stays empty. -/
theorem RunElection_skips_unjoined :
    exUnjoined4.runs = 1 ∧
      readKey exUnjoined4.candidates "A" = [cA1, cA2] ∧
      readKey exUnjoined4.candidates "B" = [cB1, cB2] ∧
      exUnjoined4.elected = [] ∧
      lookupKey exUnjoined4.elected "A" ≠ some ["A2"] ∧
      lookupKey exUnjoined4.elected "B" ≠ some ["B1"] := by
  decide

/-- C8, amended: `RunElection` stores, for every partition of the membership map
(every partition with at least one joined member), the list `Elect` returns for
it, and leaves the entry of every other partition as it was.  With limit 4 and
50 percent, once `A1`, `A2`, `B1`, `B2` have joined, registering them leaves
`elected[A] = [A2]` and `elected[B] = [B1]`. -/
theorem RunElection_stores (env : Env) (e : Election) :
    (∀ as, as ∈ keysOf e.camera →
        lookupKey (RunElection env e).elected as = some (Elect env e as).1) ∧
      (∀ as, as ∉ keysOf e.camera →
        lookupKey (RunElection env e).elected as = lookupKey e.elected as) ∧
      lookupKey exElection4.elected "A" = some ["A2"] ∧
      lookupKey exElection4.elected "B" = some ["B1"] := by
  obtain ⟨h1, h2, _⟩ := RunElection_spec env e
  exact ⟨h1, h2, by decide, by decide⟩

/-! ## After the quorum -/

theorem step_frozen (env : Env) (e : Election) (call : Call) (h : e.limit ≤ e.nodes) :
    (step env e call).elected = e.elected ∧ (step env e call).runs = e.runs ∧
      (step env e call).limit ≤ (step env e call).nodes := by
  obtain ⟨h1, h2⟩ := step_nodes env e call
  have hr := step_runs env e call
  refine ⟨?_, ?_, ?_⟩
  · cases call with
    | newJoin id => rfl
    | registerCandidate c =>
      exact (RegisterCandidate_elected_of_ne env e c (by omega)).1
    | removeCandidate id => rfl
    | getElected => rfl
  · rw [hr]
    cases call with
    | newJoin id => rfl
    | registerCandidate c =>
      have hne : ¬ e.nodes + 1 = e.limit := by omega
      simp [hne]
    | removeCandidate id => rfl
    | getElected => rfl
  · rw [h1, h2]
    cases call <;> simp <;> omega

/-- C9: once the counter has reached the limit, no sequence of
`RegisterCandidate`, `NewJoin`, `RemoveCandidate` and `GetElected` calls changes
the elected map or runs the election again, so `GetElected` keeps returning the
same list. -/
theorem elected_frozen (env : Env) (e : Election) (calls : List Call)
    (h : e.limit ≤ e.nodes) :
    (runCalls env e calls).elected = e.elected ∧ (runCalls env e calls).runs = e.runs ∧
      GetElected (runCalls env e calls) = GetElected e := by
  have key : (runCalls env e calls).elected = e.elected ∧
      (runCalls env e calls).runs = e.runs := by
    induction calls generalizing e with
    | nil => exact ⟨rfl, rfl⟩
    | cons call calls ih =>
      obtain ⟨s1, s2, s3⟩ := step_frozen env e call h
      obtain ⟨i1, i2⟩ := ih (step env e call) s3
      have hrun : runCalls env e (call :: calls) = runCalls env (step env e call) calls := rfl
      rw [hrun, i1, i2]
      exact ⟨s1, s2⟩
  exact ⟨key.1, key.2, GetElected_congr _ _ key.1⟩

/-- Witness C9: after the election of the example, a late registration, a join
and two removals leave the elected map as it was. -/
theorem elected_frozen_witness :
    (runCalls exEnv exElection4
        [Call.registerCandidate cA1, Call.newJoin "C1", Call.removeCandidate "A2",
         Call.getElected, Call.removeCandidate "B1"]).elected = exElection4.elected ∧
      (runCalls exEnv exElection4
        [Call.registerCandidate cA1, Call.newJoin "C1", Call.removeCandidate "A2",
         Call.getElected, Call.removeCandidate "B1"]).runs = exElection4.runs ∧
      GetElected (runCalls exEnv exElection4
        [Call.registerCandidate cA1, Call.newJoin "C1", Call.removeCandidate "A2",
         Call.getElected, Call.removeCandidate "B1"]) = GetElected exElection4 :=
  elected_frozen exEnv exElection4
    [Call.registerCandidate cA1, Call.newJoin "C1", Call.removeCandidate "A2",
     Call.getElected, Call.removeCandidate "B1"] (by decide)

/-- C10: a `RegisterCandidate(c)` call that brings the counter strictly above the
limit makes exactly one send, addressed to `c.Id`, carrying the elected list of
the partition of `c` when the elected map has an entry for it and `[c.Id]`
otherwise (the elected map itself is not changed); a call that leaves the
counter strictly below the limit makes no send. -/
theorem RegisterCandidate_sends (env : Env) (e : Election) (c : Candidate) :
    ((RegisterCandidate env e c).limit < (RegisterCandidate env e c).nodes →
        (RegisterCandidate env e c).sent
            = e.sent ++ [(c.Id, match lookupKey e.elected (env.getAS c.Id) with
                | some l => l
                | none => [c.Id])] ∧
          (RegisterCandidate env e c).elected = e.elected) ∧
      ((RegisterCandidate env e c).nodes < (RegisterCandidate env e c).limit →
        (RegisterCandidate env e c).sent = e.sent) := by
  obtain ⟨n1, n2⟩ := RegisterCandidate_nodes env e c
  obtain ⟨_, _, _, h4, h5, _⟩ := registered_frame env e c
  rw [n1, n2]
  constructor
  · intro hgt
    have hne : ¬ e.nodes + 1 = e.limit := by omega
    rw [RegisterCandidate_eq, if_neg hne, if_pos hgt]
    exact ⟨rfl, h4⟩
  · intro hlt
    have hne : ¬ e.nodes + 1 = e.limit := by omega
    have hng : ¬ e.limit < e.nodes + 1 := by omega
    rw [RegisterCandidate_eq, if_neg hne, if_neg hng]
    exact h5

/-- Witness C10: a registration after the election of the example is answered
with the elected list of its partition, one in an unknown partition with the
candidate itself, and one below the limit with nothing. -/
theorem RegisterCandidate_sends_witness :
    ((RegisterCandidate exEnv exElection4 cA1).sent = exElection4.sent ++ [("A1", ["A2"])] ∧
        (RegisterCandidate exEnv exElection4 cA1).elected = exElection4.elected) ∧
      (RegisterCandidate exEnv exTwoA cB1).sent = exTwoA.sent :=
  ⟨(RegisterCandidate_sends exEnv exElection4 cA1).1 (by decide),
    (RegisterCandidate_sends exEnv exTwoA cB1).2 (by decide)⟩

/-! ## The state at the quorum -/

theorem lookupKey_append_entry {V : Type} (m : List (String × List V)) (k p : String) (x : V) :
    lookupKey (storeKey (if (lookupKey m k).isNone then storeKey m k [] else m) k
        (readKey (if (lookupKey m k).isNone then storeKey m k [] else m) k ++ [x])) p
      = if p = k then some (readKey m k ++ [x]) else lookupKey m p := by
  by_cases hp : p = k
  · subst hp
    rw [lookupKey_storeKey_same, if_pos rfl]
    cases h : lookupKey m p with
    | none => simp [readKey, h, lookupKey_storeKey_same]
    | some l => simp [readKey, h]
  · rw [lookupKey_storeKey_other _ _ _ _ hp, if_neg hp]
    cases h : lookupKey m k with
    | none => simp [lookupKey_storeKey_other _ _ _ _ hp]
    | some l => simp

theorem NewJoin_camera (env : Env) (e : Election) (id p : String) :
    lookupKey (NewJoin env e id).camera p
      = if p = env.getAS id then some (readKey e.camera (env.getAS id) ++ [id])
        else lookupKey e.camera p :=
  lookupKey_append_entry e.camera (env.getAS id) p id

theorem registered_candidates (env : Env) (e : Election) (c : Candidate) (p : String) :
    lookupKey (registered env e c).candidates p
      = if p = env.getAS c.Id then some (readKey e.candidates (env.getAS c.Id) ++ [c])
        else lookupKey e.candidates p :=
  lookupKey_append_entry e.candidates (env.getAS c.Id) p c

theorem mem_of_lookupKey {V : Type} (m : List (String × V)) (k : String) (v : V)
    (h : lookupKey m k = some v) : (k, v) ∈ m := by
  induction m with
  | nil => simp [lookupKey] at h
  | cons q m ih =>
    obtain ⟨k1, v1⟩ := q
    by_cases h1 : k1 = k
    · subst h1
      simp [lookupKey] at h
      simp [h]
    · simp [lookupKey, h1] at h
      exact List.mem_cons_of_mem _ (ih h)

theorem GetElected_eq (e : Election) : GetElected e = e.elected.flatMap Prod.snd := by
  have key : ∀ (l : List (String × List String)) (init : List String),
      l.foldl (fun allElected kv => allElected ++ kv.2) init = init ++ l.flatMap Prod.snd := by
    intro l
    induction l with
    | nil => intro init; simp
    | cons kv l ih =>
      intro init
      simp [List.foldl_cons, ih, List.flatMap_cons, List.append_assoc]
  simpa [GetElected] using key e.elected []

theorem leaders_ne_nil (f : Int) (cands : List Candidate) (hc : cands ≠ []) (h0 : 0 ≤ f)
    (h100 : f ≤ 100) :
    ((sortById cands).take (maxLeaders f cands.length).toNat).map Candidate.Id ≠ [] := by
  have hlen : 1 ≤ cands.length := by
    cases cands with
    | nil => exact absurd rfl hc
    | cons a l => simp
  have hm := (maxLeaders_of_percent f cands.length hlen h0 h100).2.1
  intro h
  have h2 := congrArg List.length h
  rw [List.length_map, List.length_take, sortById_length] at h2
  simp only [List.length_nil] at h2
  omega

theorem RegisterCandidate_below (env : Env) (e : Election) (c : Candidate)
    (h : e.nodes + 1 < e.limit) : RegisterCandidate env e c = registered env e c := by
  have hne : ¬ e.nodes + 1 = e.limit := by omega
  have hng : ¬ e.limit < e.nodes + 1 := by omega
  rw [RegisterCandidate_eq, if_neg hne, if_neg hng]

theorem accumulating_quiet (env : Env) (limit : Int) (calls : List Call)
    (hlt : (registrations calls : Int) < limit) :
    (runCalls env (NewElection limit) calls).elected = [] ∧
      (runCalls env (NewElection limit) calls).sent = [] := by
  induction calls using List.reverseRecOn with
  | nil => exact ⟨rfl, rfl⟩
  | append_singleton pre call ih =>
    obtain ⟨h1, h2⟩ := runCalls_nodes env (NewElection limit) pre
    have h3 : (NewElection limit).limit = limit := rfl
    have h4 : (NewElection limit).nodes = 0 := rfl
    rw [registrations_snoc] at hlt
    rw [runCalls_snoc]
    cases call with
    | newJoin id =>
      simp only [Nat.add_zero] at hlt
      exact ih hlt
    | registerCandidate c =>
      simp only at hlt
      have hpre : (registrations pre : Int) < limit := by omega
      obtain ⟨i1, i2⟩ := ih hpre
      obtain ⟨_, _, _, f4, f5, _⟩ := registered_frame env (runCalls env (NewElection limit) pre) c
      have hb : (runCalls env (NewElection limit) pre).nodes + 1
          < (runCalls env (NewElection limit) pre).limit := by
        rw [h1, h2, h3, h4]
        push_cast at hlt
        omega
      show (RegisterCandidate env _ c).elected = [] ∧ (RegisterCandidate env _ c).sent = []
      rw [RegisterCandidate_below env _ c hb, f4, f5]
      exact ⟨i1, i2⟩
    | removeCandidate id =>
      simp only [Nat.add_zero] at hlt
      exact ih hlt
    | getElected =>
      simp only [Nat.add_zero] at hlt
      exact ih hlt

theorem accumulating_nonempty (env : Env) (limit : Int) (calls : List Call)
    (hcalls : ∀ call ∈ calls,
      (∃ id, call = Call.newJoin id) ∨ (∃ c, call = Call.registerCandidate c))
    (hlt : (registrations calls : Int) < limit) :
    (∀ as l, lookupKey (runCalls env (NewElection limit) calls).camera as = some l → l ≠ []) ∧
      (∀ as l, lookupKey (runCalls env (NewElection limit) calls).candidates as = some l →
        l ≠ []) := by
  induction calls using List.reverseRecOn with
  | nil =>
    constructor
    · intro as l h
      simp [runCalls, NewElection, lookupKey] at h
    · intro as l h
      simp [runCalls, NewElection, lookupKey] at h
  | append_singleton pre call ih =>
    obtain ⟨h1, h2⟩ := runCalls_nodes env (NewElection limit) pre
    have h3 : (NewElection limit).limit = limit := rfl
    have h4 : (NewElection limit).nodes = 0 := rfl
    have hpre : ∀ call ∈ pre,
        (∃ id, call = Call.newJoin id) ∨ (∃ c, call = Call.registerCandidate c) :=
      fun x hx => hcalls x (List.mem_append_left _ hx)
    rw [registrations_snoc] at hlt
    rw [runCalls_snoc]
    rcases hcalls call (List.mem_append_right _ (List.mem_singleton_self _)) with ⟨id, hid⟩ | ⟨c, hc⟩
    · subst hid
      simp only [Nat.add_zero] at hlt
      obtain ⟨i1, i2⟩ := ih hpre hlt
      constructor
      · intro as l h
        have hj := NewJoin_camera env (runCalls env (NewElection limit) pre) id as
        have h5 : lookupKey (NewJoin env (runCalls env (NewElection limit) pre) id).camera as
            = some l := h
        rw [hj] at h5
        by_cases hp : as = env.getAS id
        · rw [if_pos hp] at h5
          have h6 := Option.some.inj h5
          rw [← h6]
          simp
        · rw [if_neg hp] at h5
          exact i1 as l h5
      · intro as l h
        exact i2 as l h
    · subst hc
      simp only at hlt
      have hpre2 : (registrations pre : Int) < limit := by omega
      obtain ⟨i1, i2⟩ := ih hpre hpre2
      obtain ⟨_, _, f3, _, _, _⟩ := registered_frame env (runCalls env (NewElection limit) pre) c
      have hb : (runCalls env (NewElection limit) pre).nodes + 1
          < (runCalls env (NewElection limit) pre).limit := by
        rw [h1, h2, h3, h4]
        push_cast at hlt
        omega
      have hstep : step env (runCalls env (NewElection limit) pre) (Call.registerCandidate c)
          = registered env (runCalls env (NewElection limit) pre) c :=
        RegisterCandidate_below env _ c hb
      rw [hstep]
      constructor
      · intro as l h
        rw [f3] at h
        exact i1 as l h
      · intro as l h
        rw [registered_candidates] at h
        by_cases hp : as = env.getAS c.Id
        · rw [if_pos hp] at h
          have h6 := Option.some.inj h
          rw [← h6]
          simp
        · rw [if_neg hp] at h
          exact i2 as l h

theorem step_register_at_limit (env : Env) (e : Election) (c : Candidate)
    (h : e.nodes + 1 = e.limit) :
    step env e (Call.registerCandidate c) = RunElection env (registered env e c) := by
  show RegisterCandidate env e c = _
  rw [RegisterCandidate_eq, if_pos h]

theorem registered_nonempty (env : Env) (e : Election) (c : Candidate)
    (h : ∀ as l, lookupKey e.candidates as = some l → l ≠ []) :
    ∀ as l, lookupKey (registered env e c).candidates as = some l → l ≠ [] := by
  intro as l hl
  rw [registered_candidates] at hl
  by_cases hp : as = env.getAS c.Id
  · rw [if_pos hp] at hl
    have h6 := Option.some.inj hl
    rw [← h6]
    simp
  · rw [if_neg hp] at hl
    exact h as l hl

/-- C7, counterexample: with limit 1, after the one registration of `A1` the
partition `A` holds a registered candidate, the election has run, and yet the
elected map has no entry for `A` and `GetElected` returns the empty list. -/
theorem quorum_without_join :
    (runCalls exEnv (NewElection 1) [Call.registerCandidate cA1]).runs = 1 ∧
      readKey (runCalls exEnv (NewElection 1) [Call.registerCandidate cA1]).candidates "A"
        = [cA1] ∧
      lookupKey (runCalls exEnv (NewElection 1) [Call.registerCandidate cA1]).elected "A"
        = none ∧
      GetElected (runCalls exEnv (NewElection 1) [Call.registerCandidate cA1]) = [] := by
  decide

/-- C7, amended: from a fresh engine with a leader percentage between 0 and 100,
when the `limit`-th `RegisterCandidate` call returns (only `NewJoin` and
`RegisterCandidate` calls before it), every partition with a joined member has
an entry in the elected map; that entry is what `Elect` returns for the
partition, is non-empty, and is the membership list when the partition has no
registry and the top-ranked identities of its registry otherwise.  A partition
without a joined member has no entry, and `GetElected` is non-empty exactly
when some node has joined. -/
theorem quorum_election (env : Env) (limit : Int) (hp : 0 ≤ env.LeaderPercent)
    (hp100 : env.LeaderPercent ≤ 100) (pre : List Call) (c : Candidate)
    (hpre : ∀ call ∈ pre,
      (∃ id, call = Call.newJoin id) ∨ (∃ c, call = Call.registerCandidate c))
    (hcount : (registrations pre : Int) + 1 = limit) :
    (∀ as members,
        lookupKey (runCalls env (NewElection limit)
          (pre ++ [Call.registerCandidate c])).camera as = some members →
        lookupKey (runCalls env (NewElection limit)
            (pre ++ [Call.registerCandidate c])).elected as
          = some (Elect env (runCalls env (NewElection limit)
              (pre ++ [Call.registerCandidate c])) as).1 ∧
        (Elect env (runCalls env (NewElection limit)
          (pre ++ [Call.registerCandidate c])) as).1 ≠ [] ∧
        (lookupKey (runCalls env (NewElection limit)
            (pre ++ [Call.registerCandidate c])).candidates as = none →
          (Elect env (runCalls env (NewElection limit)
            (pre ++ [Call.registerCandidate c])) as).1 = members) ∧
        (∀ cands, lookupKey (runCalls env (NewElection limit)
            (pre ++ [Call.registerCandidate c])).candidates as = some cands →
          (Elect env (runCalls env (NewElection limit)
            (pre ++ [Call.registerCandidate c])) as).1
            = ((sortById cands).take (maxLeaders env.LeaderPercent cands.length).toNat).map
                Candidate.Id)) ∧
      (∀ as, lookupKey (runCalls env (NewElection limit)
          (pre ++ [Call.registerCandidate c])).camera as = none →
        lookupKey (runCalls env (NewElection limit)
          (pre ++ [Call.registerCandidate c])).elected as = none) ∧
      (GetElected (runCalls env (NewElection limit) (pre ++ [Call.registerCandidate c])) ≠ [] ↔
        (runCalls env (NewElection limit) (pre ++ [Call.registerCandidate c])).camera ≠ []) := by
  have hlt : (registrations pre : Int) < limit := by omega
  obtain ⟨q1, _⟩ := accumulating_quiet env limit pre hlt
  obtain ⟨n1, n2⟩ := accumulating_nonempty env limit pre hpre hlt
  obtain ⟨h1, h2⟩ := runCalls_nodes env (NewElection limit) pre
  have h3 : (NewElection limit).limit = limit := rfl
  have h4 : (NewElection limit).nodes = 0 := rfl
  simp only [runCalls_snoc]
  generalize runCalls env (NewElection limit) pre = e at q1 n1 n2 h1 h2
  have hfire : e.nodes + 1 = e.limit := by
    rw [h1, h2, h3, h4]
    omega
  rw [step_register_at_limit env e c hfire]
  obtain ⟨_, _, f3, f4, _, _⟩ := registered_frame env e c
  have m2 := registered_nonempty env e c n2
  rw [← f3] at n1
  rw [← f4] at q1
  generalize registered env e c = e2 at n1 m2 q1
  obtain ⟨s1, s2, s3⟩ := RunElection_spec env e2
  obtain ⟨_, _, r3, _, r5, _⟩ := RunElection_frame env e2
  have hsame : ∀ as, (Elect env (RunElection env e2) as).1 = (Elect env e2 as).1 :=
    fun as => Elect_leaders_congr env e2 (RunElection env e2) as r3 (s3 as)
  refine ⟨?_, ?_, ?_⟩
  · intro as members hmem
    rw [r3] at hmem
    have hkey : as ∈ keysOf e2.camera :=
      (lookupKey_isSome_iff_mem_keysOf e2.camera as).mp (by rw [hmem]; rfl)
    have hmne : members ≠ [] := n1 as members hmem
    refine ⟨?_, ?_, ?_, ?_⟩
    · rw [s1 as hkey, hsame as]
    · rw [hsame as]
      cases hc : lookupKey e2.candidates as with
      | none =>
        rw [Elect_of_no_registry env e2 as hc]
        simpa [readKey, hmem] using hmne
      | some cands =>
        rw [Elect_of_registry env e2 as cands hc]
        exact leaders_ne_nil env.LeaderPercent cands (m2 as cands hc) hp hp100
    · intro hnone
      rw [Elect_of_no_registry env _ as hnone, r3]
      simp [readKey, hmem]
    · intro cands hc
      exact Elect_of_registry env _ as cands hc
  · intro as hnone
    rw [r3] at hnone
    have hkey : as ∉ keysOf e2.camera := by
      intro hin
      have := (lookupKey_isSome_iff_mem_keysOf e2.camera as).mpr hin
      rw [hnone] at this
      exact absurd this (by decide)
    rw [s2 as hkey, q1]
    rfl
  · rw [r3]
    constructor
    · intro hne hcam
      apply hne
      rw [GetElected_eq, r5, hcam]
      show (electEach env [] e2).elected.flatMap Prod.snd = []
      simp [electEach, q1]
    · intro hcam
      cases hcm : e2.camera with
      | nil => exact absurd hcm hcam
      | cons kv rest =>
        obtain ⟨k, l⟩ := kv
        have hlk : lookupKey e2.camera k = some l := by simp [hcm, lookupKey]
        have hkey : k ∈ keysOf e2.camera := by simp [hcm, keysOf]
        have hl : l ≠ [] := n1 k l hlk
        have hel := s1 k hkey
        have hne : (Elect env e2 k).1 ≠ [] := by
          cases hc : lookupKey e2.candidates k with
          | none =>
            rw [Elect_of_no_registry env e2 k hc]
            simpa [readKey, hlk] using hl
          | some cands =>
            rw [Elect_of_registry env e2 k cands hc]
            exact leaders_ne_nil env.LeaderPercent cands (m2 k cands hc) hp hp100
        obtain ⟨x, hx⟩ := List.exists_mem_of_ne_nil _ hne
        have hin := mem_of_lookupKey _ _ _ hel
        intro hnil
        have hx2 : x ∈ GetElected (RunElection env e2) := by
          rw [GetElected_eq]
          exact List.mem_flatMap_of_mem hin hx
        rw [hnil] at hx2
        simp at hx2

/-- Witness C7: limit 2, `A1` and `B1` joined, `A1` and then `A2` registered. -/
theorem quorum_election_witness :
    (∀ as members,
        lookupKey (runCalls exEnv (NewElection 2)
          (exBefore ++ [Call.registerCandidate cA2])).camera as = some members →
        lookupKey (runCalls exEnv (NewElection 2)
            (exBefore ++ [Call.registerCandidate cA2])).elected as
          = some (Elect exEnv (runCalls exEnv (NewElection 2)
              (exBefore ++ [Call.registerCandidate cA2])) as).1 ∧
        (Elect exEnv (runCalls exEnv (NewElection 2)
          (exBefore ++ [Call.registerCandidate cA2])) as).1 ≠ [] ∧
        (lookupKey (runCalls exEnv (NewElection 2)
            (exBefore ++ [Call.registerCandidate cA2])).candidates as = none →
          (Elect exEnv (runCalls exEnv (NewElection 2)
            (exBefore ++ [Call.registerCandidate cA2])) as).1 = members) ∧
        (∀ cands, lookupKey (runCalls exEnv (NewElection 2)
            (exBefore ++ [Call.registerCandidate cA2])).candidates as = some cands →
          (Elect exEnv (runCalls exEnv (NewElection 2)
            (exBefore ++ [Call.registerCandidate cA2])) as).1
            = ((sortById cands).take (maxLeaders exEnv.LeaderPercent cands.length).toNat).map
                Candidate.Id)) ∧
      (∀ as, lookupKey (runCalls exEnv (NewElection 2)
          (exBefore ++ [Call.registerCandidate cA2])).camera as = none →
        lookupKey (runCalls exEnv (NewElection 2)
          (exBefore ++ [Call.registerCandidate cA2])).elected as = none) ∧
      (GetElected (runCalls exEnv (NewElection 2) (exBefore ++ [Call.registerCandidate cA2])) ≠ [] ↔
        (runCalls exEnv (NewElection 2) (exBefore ++ [Call.registerCandidate cA2])).camera ≠ []) :=
  quorum_election exEnv 2 (by decide) (by decide) exBefore cA2
    (by
      intro call hcall
      simp only [exBefore, List.mem_cons, List.mem_singleton, List.not_mem_nil, or_false] at hcall
      rcases hcall with h | h | h
      · exact Or.inl ⟨"A1", h⟩
      · exact Or.inl ⟨"B1", h⟩
      · exact Or.inr ⟨cA1, h⟩)
    (by decide)

/-! ## What a registration does to the registries -/

theorem Elect_candidates (env : Env) (e : Election) (as p : String) :
    lookupKey (Elect env e as).2.candidates p
      = if p = as then (lookupKey e.candidates p).map sortById else lookupKey e.candidates p := by
  unfold Elect
  by_cases hp : p = as
  · subst hp
    rw [if_pos rfl]
    cases h : lookupKey e.candidates p with
    | none => simp [h]
    | some cands => simp [lookupKey_storeKey_same]
  · rw [if_neg hp]
    cases h : lookupKey e.candidates as with
    | none => rfl
    | some cands => simp [lookupKey_storeKey_other _ _ _ _ hp]

theorem electEach_candidates (env : Env) (ks : List String) (e : Election) (p : String) :
    lookupKey (electEach env ks e).candidates p
      = if p ∈ ks then (lookupKey e.candidates p).map sortById else lookupKey e.candidates p := by
  induction ks generalizing e with
  | nil => simp [electEach]
  | cons k ks ih =>
    simp only [electEach]
    rw [ih]
    have hc : lookupKey ({ (Elect env e k).2 with
        elected := storeKey (Elect env e k).2.elected k (Elect env e k).1 } : Election).candidates p
        = if p = k then (lookupKey e.candidates p).map sortById else lookupKey e.candidates p :=
      Elect_candidates env e k p
    rw [hc]
    by_cases hk : p = k
    · by_cases hin : p ∈ ks
      · have hmem : p ∈ k :: ks := List.mem_cons_of_mem _ hin
        rw [if_pos hin, if_pos hk, if_pos hmem]
        cases lookupKey e.candidates p with
        | none => rfl
        | some l => simp [sortById_idem]
      · have hmem : p ∈ k :: ks := by rw [hk]; exact List.mem_cons_self _ _
        rw [if_neg hin, if_pos hk, if_pos hmem]
    · by_cases hin : p ∈ ks
      · have hmem : p ∈ k :: ks := List.mem_cons_of_mem _ hin
        rw [if_pos hin, if_neg hk, if_pos hmem]
      · have hmem : p ∉ k :: ks := by
          intro h
          rcases List.mem_cons.mp h with h | h
          · exact hk h
          · exact hin h
        rw [if_neg hin, if_neg hk, if_neg hmem]

theorem readKey_registered (env : Env) (e : Election) (c : Candidate) (p : String) :
    readKey (registered env e c).candidates p
      = if p = env.getAS c.Id then readKey e.candidates p ++ [c] else readKey e.candidates p := by
  have h := registered_candidates env e c p
  by_cases hp : p = env.getAS c.Id
  · rw [if_pos hp] at h
    rw [if_pos hp]
    simp only [readKey, h]
    rw [hp]
  · rw [if_neg hp] at h
    rw [if_neg hp]
    simp only [readKey, h]

theorem readKey_RunElection (env : Env) (e : Election) (p : String) :
    readKey (RunElection env e).candidates p
      = if p ∈ keysOf e.camera then sortById (readKey e.candidates p)
        else readKey e.candidates p := by
  obtain ⟨_, _, _, _, _, r6⟩ := RunElection_frame env e
  unfold readKey
  rw [r6, electEach_candidates]
  by_cases hin : p ∈ keysOf e.camera
  · rw [if_pos hin, if_pos hin]
    cases lookupKey e.candidates p with
    | none => simp [sortById]
    | some l => simp
  · rw [if_neg hin, if_neg hin]

/-- C11, counterexample: with limit 2 and `A1` a member, the registry of
partition `A` is `[A1]`; registering `A2` (higher upload) reaches the limit and
leaves the registry `[A2, A1]`, not `[A1, A2]`. -/
theorem RegisterCandidate_reorders_at_limit :
    readKey exBelow2.candidates (exEnv.getAS cA2.Id) = [cA1] ∧
      exBelow2.nodes + 1 = exBelow2.limit ∧
      readKey (RegisterCandidate exEnv exBelow2 cA2).candidates (exEnv.getAS cA2.Id)
        = [cA2, cA1] ∧
      readKey (RegisterCandidate exEnv exBelow2 cA2).candidates (exEnv.getAS cA2.Id)
        ≠ readKey exBelow2.candidates (exEnv.getAS cA2.Id) ++ [cA2] := by
  decide

/-- C11, amended: `RegisterCandidate(c)` increases the counter by exactly 1 and
leaves the membership map unchanged.  Every registry keeps its candidates, the
registry of the partition of `c` gaining `c` (as a multiset).  When the call does
not reach the limit, the registry of the partition of `c` is its previous
content with `c` appended at the end and every other registry entry is
unchanged.  When the call reaches the limit, the election leaves the registry
of every partition of the membership map sorted by rank, and the registries of
the other partitions in arrival order. -/
theorem RegisterCandidate_registry (env : Env) (e : Election) (c : Candidate) :
    (RegisterCandidate env e c).nodes = e.nodes + 1 ∧
      (RegisterCandidate env e c).camera = e.camera ∧
      (∀ p, (readKey (RegisterCandidate env e c).candidates p).Perm
        (if p = env.getAS c.Id then readKey e.candidates p ++ [c] else readKey e.candidates p)) ∧
      (e.nodes + 1 ≠ e.limit →
        lookupKey (RegisterCandidate env e c).candidates (env.getAS c.Id)
            = some (readKey e.candidates (env.getAS c.Id) ++ [c]) ∧
          ∀ p, p ≠ env.getAS c.Id →
            lookupKey (RegisterCandidate env e c).candidates p = lookupKey e.candidates p) ∧
      (e.nodes + 1 = e.limit →
        ∀ p, readKey (RegisterCandidate env e c).candidates p
          = if p ∈ keysOf e.camera then
              sortById (if p = env.getAS c.Id then readKey e.candidates p ++ [c]
                else readKey e.candidates p)
            else (if p = env.getAS c.Id then readKey e.candidates p ++ [c]
                else readKey e.candidates p)) := by
  obtain ⟨_, _, f3, _, _, _⟩ := registered_frame env e c
  obtain ⟨_, _, r3, _, _, _⟩ := RunElection_frame env (registered env e c)
  have hnot : e.nodes + 1 ≠ e.limit → RegisterCandidate env e c = registered env e c ∨
      ∃ sent, RegisterCandidate env e c = { registered env e c with sent := sent } := by
    intro hne
    rw [RegisterCandidate_eq, if_neg hne]
    split_ifs
    · exact Or.inr ⟨_, rfl⟩
    · exact Or.inl rfl
  have hcands : e.nodes + 1 ≠ e.limit →
      (RegisterCandidate env e c).candidates = (registered env e c).candidates := by
    intro hne
    rcases hnot hne with h | ⟨sent, h⟩ <;> rw [h]
  have hlim : e.nodes + 1 = e.limit →
      RegisterCandidate env e c = RunElection env (registered env e c) := by
    intro h
    rw [RegisterCandidate_eq, if_pos h]
  refine ⟨(RegisterCandidate_nodes env e c).1, ?_, ?_, ?_, ?_⟩
  · by_cases h : e.nodes + 1 = e.limit
    · rw [hlim h, r3, f3]
    · exact (RegisterCandidate_elected_of_ne env e c h).2
  · intro p
    rw [← readKey_registered]
    by_cases h : e.nodes + 1 = e.limit
    · rw [hlim h, readKey_RunElection]
      split_ifs
      · exact sortById_perm _
      · exact List.Perm.refl _
    · rw [hcands h]
  · intro hne
    rw [hcands hne]
    constructor
    · rw [registered_candidates, if_pos rfl]
    · intro p hp
      rw [registered_candidates, if_neg hp]
  · intro h p
    rw [hlim h, readKey_RunElection, f3, readKey_registered]

/-- Witness C11: a registration below the limit and the one that reaches it. -/
theorem RegisterCandidate_registry_witness :
    (lookupKey (RegisterCandidate exEnv exTwoA cB1).candidates (exEnv.getAS cB1.Id)
          = some (readKey exTwoA.candidates (exEnv.getAS cB1.Id) ++ [cB1]) ∧
        ∀ p, p ≠ exEnv.getAS cB1.Id →
          lookupKey (RegisterCandidate exEnv exTwoA cB1).candidates p
            = lookupKey exTwoA.candidates p) ∧
      (∀ p, readKey (RegisterCandidate exEnv exBelow2 cA2).candidates p
        = if p ∈ keysOf exBelow2.camera then
            sortById (if p = exEnv.getAS cA2.Id then readKey exBelow2.candidates p ++ [cA2]
              else readKey exBelow2.candidates p)
          else (if p = exEnv.getAS cA2.Id then readKey exBelow2.candidates p ++ [cA2]
              else readKey exBelow2.candidates p)) :=
  ⟨(RegisterCandidate_registry exEnv exTwoA cB1).2.2.2.1 (by decide),
    (RegisterCandidate_registry exEnv exBelow2 cA2).2.2.2.2 (by decide)⟩

/-! ## Notifications of the election -/

theorem mem_keysOf_of_mem {V : Type} (m : List (String × V)) (kv : String × V)
    (h : kv ∈ m) : kv.1 ∈ keysOf m :=
  List.mem_map_of_mem Prod.fst h

/-- C12: `RunElection` sends, for every partition of the membership map and every
entry of its membership list (with multiplicity, in list order), one `Leaders`
notification addressed to that member and carrying the list just stored for the
partition, which is what `Elect` returns for it; it makes no other send, so the
number of sends is the number of membership entries. -/
theorem RunElection_sends (env : Env) (e : Election) :
    (RunElection env e).sent
        = e.sent ++ e.camera.flatMap
            (fun kv => kv.2.map (fun node => (node, (Elect env e kv.1).1))) ∧
      (∀ kv ∈ e.camera,
        lookupKey (RunElection env e).elected kv.1 = some (Elect env e kv.1).1) ∧
      (RunElection env e).sent.length
        = e.sent.length + (e.camera.map (fun kv => kv.2.length)).sum := by
  obtain ⟨s1, _, _⟩ := RunElection_spec env e
  obtain ⟨_, _, g3, g4, _⟩ := electEach_frame env (keysOf e.camera) e
  obtain ⟨_, _, _, _, r5, _⟩ := RunElection_frame env e
  have hstored : ∀ kv ∈ e.camera,
      lookupKey (RunElection env e).elected kv.1 = some (Elect env e kv.1).1 :=
    fun kv hkv => s1 kv.1 (mem_keysOf_of_mem e.camera kv hkv)
  have hsent : (RunElection env e).sent
      = e.sent ++ e.camera.flatMap
          (fun kv => kv.2.map (fun node => (node, (Elect env e kv.1).1))) := by
    show (electEach env (keysOf e.camera) e).sent
        ++ leaderSends (electEach env (keysOf e.camera) e) = _
    rw [g4]
    congr 1
    unfold leaderSends
    rw [g3]
    apply List.flatMap_congr
    intro kv hkv
    have h := hstored kv hkv
    rw [r5] at h
    simp only [readKey, h]
  refine ⟨hsent, hstored, ?_⟩
  rw [hsent, List.length_append, List.length_flatMap]
  congr 2
  apply List.map_congr_left
  intro kv _
  simp

/-- C13: `GetElected` returns the concatenation of the elected lists of all
entries of the elected map, each list a contiguous block in its stored order,
the blocks in the iteration order of the map; its length is the sum of the
lengths of the elected lists, and the call leaves the state as it is. -/
theorem GetElected_concat (env : Env) (e : Election) :
    GetElected e = (e.elected.map Prod.snd).flatten ∧
      (∃ order : List (String × List String),
        order.Perm e.elected ∧ GetElected e = (order.map Prod.snd).flatten) ∧
      (GetElected e).length = (e.elected.map (fun kv => kv.2.length)).sum ∧
      step env e Call.getElected = e ∧
      (step env e Call.getElected).sent = e.sent := by
  have h : GetElected e = (e.elected.map Prod.snd).flatten := by
    rw [GetElected_eq, List.flatMap]
  refine ⟨h, ⟨e.elected, List.Perm.refl _, h⟩, ?_, rfl, rfl⟩
  rw [h, List.length_flatten, List.map_map]
  rfl

/-- C14: `byId.Less` is a strict total order on candidates identified by
(upload, download, identity): it is irreflexive and transitive, of two
candidates that differ in a field exactly one is `Less` than the other, and it
ranks higher upload first, then higher download, then smaller identity. -/
theorem Less_strict_total_order :
    (∀ a : Candidate, Less a a = false) ∧
      (∀ a b c : Candidate, Less a b = true → Less b c = true → Less a c = true) ∧
      (∀ a b : Candidate, (a.Up ≠ b.Up ∨ a.Down ≠ b.Down ∨ a.Id ≠ b.Id) →
        (Less a b = true ∧ Less b a = false) ∨ (Less a b = false ∧ Less b a = true)) ∧
      (∀ a b : Candidate, b.Up < a.Up → Less a b = true) ∧
      (∀ a b : Candidate, a.Up = b.Up → b.Down < a.Down → Less a b = true) ∧
      (∀ a b : Candidate, a.Up = b.Up → a.Down = b.Down →
        (Less a b = true ↔ a.Id.toList < b.Id.toList)) := by
  refine ⟨Less_irrefl, Less_trans, ?_, ?_, ?_, ?_⟩
  · intro a b hdiff
    have hne : a ≠ b := by
      intro h
      subst h
      rcases hdiff with h | h | h <;> exact h rfl
    rcases Less_total a b hne with h | h
    · exact Or.inl ⟨h, Less_asymm a b h⟩
    · exact Or.inr ⟨Less_asymm b a h, h⟩
  · intro a b h
    exact (Less_iff a b).mpr (Or.inl h)
  · intro a b hu hd
    exact (Less_iff a b).mpr (Or.inr ⟨hu, Or.inl hd⟩)
  · intro a b hu hd
    rw [Less_iff]
    constructor
    · intro h
      rcases h with h | ⟨_, h | ⟨_, h⟩⟩
      · omega
      · omega
      · exact h
    · intro h
      exact Or.inr ⟨hu, Or.inr ⟨hd, h⟩⟩

/-! ## Ties and registration order -/

/-- C15, counterexample: `B2` registers before `B1`, both with upload 5 and
download 7; at 50 percent `Elect` returns `B1`, the candidate that registered
later, and not `B2`. -/
theorem Elect_ignores_arrival :
    readKey exLateB1.candidates "B" = [cB2, cB1] ∧ cB2.Up = cB1.Up ∧
      (Elect exEnv exLateB1 "B").1 = ["B1"] ∧
      cB1.Id ∈ (Elect exEnv exLateB1 "B").1 ∧ cB2.Id ∉ (Elect exEnv exLateB1 "B").1 := by
  decide

/-- C15, amended: among candidates of equal upload capacity `Elect` chooses by
download capacity and then by identity, not by arrival: when `a` and `b` are
registered with equal upload and `a` has the higher download, or equal download
and the smaller identity, then `a` stands before `b` in the sorted registry, so
`b` is among the elected candidates only if `a` is. -/
theorem Elect_tie_break (env : Env) (e : Election) (as : String) (cands : List Candidate)
    (a b : Candidate) (hreg : lookupKey e.candidates as = some cands)
    (ha : a ∈ cands) (hup : a.Up = b.Up)
    (htie : b.Down < a.Down ∨ (a.Down = b.Down ∧ a.Id.toList < b.Id.toList)) :
    (Elect env e as).1
        = ((sortById cands).take (maxLeaders env.LeaderPercent cands.length).toNat).map
            Candidate.Id ∧
      (b ∈ (sortById cands).take (maxLeaders env.LeaderPercent cands.length).toNat →
        a ∈ (sortById cands).take (maxLeaders env.LeaderPercent cands.length).toNat) ∧
      (b ∈ (sortById cands).take (maxLeaders env.LeaderPercent cands.length).toNat →
        a.Id ∈ (Elect env e as).1) := by
  have hless : Less a b = true := (Less_iff a b).mpr (Or.inr ⟨hup, htie⟩)
  have hres := Elect_of_registry env e as cands hreg
  have hin : b ∈ (sortById cands).take (maxLeaders env.LeaderPercent cands.length).toNat →
      a ∈ (sortById cands).take (maxLeaders env.LeaderPercent cands.length).toNat := by
    intro hb
    by_contra hna
    have hsplit : List.Pairwise rankLE
        ((sortById cands).take (maxLeaders env.LeaderPercent cands.length).toNat ++
          (sortById cands).drop (maxLeaders env.LeaderPercent cands.length).toNat) := by
      rw [List.take_append_drop]
      exact sortById_sorted cands
    have hmem : a ∈ (sortById cands).take (maxLeaders env.LeaderPercent cands.length).toNat ++
        (sortById cands).drop (maxLeaders env.LeaderPercent cands.length).toNat := by
      rw [List.take_append_drop]
      exact (sortById_perm cands).symm.subset ha
    rcases List.mem_append.mp hmem with h | h
    · exact hna h
    · have hr : rankLE b a := (List.pairwise_append.mp hsplit).2.2 b hb a h
      unfold rankLE at hr
      rw [hless] at hr
      exact absurd hr (by decide)
  refine ⟨hres, hin, ?_⟩
  intro hb
  rw [hres]
  exact List.mem_map_of_mem Candidate.Id (hin hb)

/-- Witness C15: `B1` and `B2` in the state where `B2` registered first. -/
theorem Elect_tie_break_witness :
    (Elect exEnv exLateB1 "B").1
        = ((sortById [cB2, cB1]).take
            (maxLeaders exEnv.LeaderPercent ([cB2, cB1] : List Candidate).length).toNat).map
            Candidate.Id ∧
      (cB2 ∈ (sortById [cB2, cB1]).take
          (maxLeaders exEnv.LeaderPercent ([cB2, cB1] : List Candidate).length).toNat →
        cB1 ∈ (sortById [cB2, cB1]).take
          (maxLeaders exEnv.LeaderPercent ([cB2, cB1] : List Candidate).length).toNat) ∧
      (cB2 ∈ (sortById [cB2, cB1]).take
          (maxLeaders exEnv.LeaderPercent ([cB2, cB1] : List Candidate).length).toNat →
        cB1.Id ∈ (Elect exEnv exLateB1 "B").1) :=
  Elect_tie_break exEnv exLateB1 "B" [cB2, cB1] cB1 cB2 (by decide) (by decide) (by decide)
    (by decide)

/-- C16: `NewJoin(id)` appends `id` at the end of the membership list of its
partition, also when `id` is already a member (the list then holds it once
more), and leaves every other membership list, the counter, the limit, the
registry map, the elected map and the send log unchanged. -/
theorem NewJoin_effect (env : Env) (e : Election) (id : String) :
    lookupKey (NewJoin env e id).camera (env.getAS id)
        = some (readKey e.camera (env.getAS id) ++ [id]) ∧
      readKey (NewJoin env e id).camera (env.getAS id)
        = readKey e.camera (env.getAS id) ++ [id] ∧
      (readKey (NewJoin env e id).camera (env.getAS id)).count id
        = (readKey e.camera (env.getAS id)).count id + 1 ∧
      (∀ p, p ≠ env.getAS id →
        lookupKey (NewJoin env e id).camera p = lookupKey e.camera p) ∧
      (NewJoin env e id).nodes = e.nodes ∧ (NewJoin env e id).limit = e.limit ∧
      (NewJoin env e id).candidates = e.candidates ∧
      (NewJoin env e id).elected = e.elected ∧
      (NewJoin env e id).sent = e.sent ∧ (NewJoin env e id).runs = e.runs := by
  have h1 : lookupKey (NewJoin env e id).camera (env.getAS id)
      = some (readKey e.camera (env.getAS id) ++ [id]) := by
    rw [NewJoin_camera, if_pos rfl]
  have h2 : readKey (NewJoin env e id).camera (env.getAS id)
      = readKey e.camera (env.getAS id) ++ [id] := by
    simp only [readKey, h1]
  refine ⟨h1, h2, ?_, ?_, rfl, rfl, rfl, rfl, rfl, rfl⟩
  · rw [h2, List.count_append]
    simp
  · intro p hp
    rw [NewJoin_camera, if_neg hp]

/-! ## Before the quorum -/

/-- C19: in every state reached from a fresh engine by `NewJoin`,
`RegisterCandidate`, `RemoveCandidate` (and `GetElected`) calls in which the
counter is still strictly below the limit, the elected map is empty,
`GetElected` returns the empty list, no send has been made and the election has
not run. -/
theorem accumulating_state (env : Env) (limit : Int) (calls : List Call)
    (hbelow : (runCalls env (NewElection limit) calls).nodes
      < (runCalls env (NewElection limit) calls).limit) :
    (runCalls env (NewElection limit) calls).elected = [] ∧
      GetElected (runCalls env (NewElection limit) calls) = [] ∧
      (runCalls env (NewElection limit) calls).sent = [] ∧
      (runCalls env (NewElection limit) calls).runs = 0 := by
  obtain ⟨h1, h2⟩ := runCalls_nodes env (NewElection limit) calls
  have h3 : (NewElection limit).limit = limit := rfl
  have h4 : (NewElection limit).nodes = 0 := rfl
  rw [h1, h2, h3, h4] at hbelow
  have hlt : (registrations calls : Int) < limit := by omega
  obtain ⟨q1, q2⟩ := accumulating_quiet env limit calls hlt
  have hl : 1 ≤ limit := by omega
  have hruns := runCalls_runs env limit hl calls
  rw [if_neg (by omega)] at hruns
  refine ⟨q1, ?_, q2, hruns⟩
  rw [GetElected_eq, q1]
  rfl

/-- Witness C19: limit 10, after a join, a registration and a removal. -/
theorem accumulating_state_witness :
    (runCalls exEnv (NewElection 10)
        [Call.newJoin "A1", Call.registerCandidate cA1, Call.removeCandidate "A1"]).elected = [] ∧
      GetElected (runCalls exEnv (NewElection 10)
        [Call.newJoin "A1", Call.registerCandidate cA1, Call.removeCandidate "A1"]) = [] ∧
      (runCalls exEnv (NewElection 10)
        [Call.newJoin "A1", Call.registerCandidate cA1, Call.removeCandidate "A1"]).sent = [] ∧
      (runCalls exEnv (NewElection 10)
        [Call.newJoin "A1", Call.registerCandidate cA1, Call.removeCandidate "A1"]).runs = 0 :=
  accumulating_state exEnv 10
    [Call.newJoin "A1", Call.registerCandidate cA1, Call.removeCandidate "A1"] (by decide)

/-! ## Independence of the registration order -/

theorem ElectWith_of_registry (srt : List Candidate → List Candidate) (env : Env)
    (e : Election) (as : String) (cands : List Candidate)
    (h : lookupKey e.candidates as = some cands) :
    (ElectWith srt env e as).1
      = ((srt cands).take (maxLeaders env.LeaderPercent (srt cands).length).toNat).map
          Candidate.Id := by
  simp [ElectWith, h]

theorem sortById_of_perm (c1 c2 : List Candidate) (h : c1.Perm c2) :
    sortById c1 = sortById c2 :=
  sortById_unique c2 (sortById c1) ((sortById_perm c1).trans h) (sortById_sorted c1)

/-- C20: the result of `Elect` does not depend on the order of registration.  For
two registries of a partition that are permutations of each other `Elect`
returns the same identities, and so does `Elect` run with any sorting
procedure `srt` that returns a permutation of its input in which no element is
`Less` than an earlier one. -/
theorem Elect_order_independent (env : Env) (e1 e2 : Election) (as : String)
    (c1 c2 : List Candidate) (srt : List Candidate → List Candidate)
    (h1 : lookupKey e1.candidates as = some c1) (h2 : lookupKey e2.candidates as = some c2)
    (hperm : c1.Perm c2)
    (hsrt : ∀ l, (srt l).Perm l ∧ List.Pairwise (fun a b => Less b a = false) (srt l)) :
    (Elect env e1 as).1 = (Elect env e2 as).1 ∧
      (ElectWith srt env e1 as).1 = (Elect env e1 as).1 ∧
      (ElectWith srt env e1 as).1 = (ElectWith srt env e2 as).1 := by
  have hs : ∀ l, srt l = sortById l :=
    fun l => sortById_unique l (srt l) (hsrt l).1 (hsrt l).2
  have hsame := sortById_of_perm c1 c2 hperm
  have hlen : c1.length = c2.length := hperm.length_eq
  rw [Elect_of_registry env e1 as c1 h1, Elect_of_registry env e2 as c2 h2,
    ElectWith_of_registry srt env e1 as c1 h1, ElectWith_of_registry srt env e2 as c2 h2,
    hs c1, hs c2, sortById_length, sortById_length, hsame, hlen]
  exact ⟨rfl, rfl, rfl⟩

/-- Witness C20: `B1` and `B2` registered in either order. -/
theorem Elect_order_independent_witness :
    (Elect exEnv exLateB1 "B").1 = (Elect exEnv exEarlyB1 "B").1 ∧
      (ElectWith sortById exEnv exLateB1 "B").1 = (Elect exEnv exLateB1 "B").1 ∧
      (ElectWith sortById exEnv exLateB1 "B").1 = (ElectWith sortById exEnv exEarlyB1 "B").1 :=
  Elect_order_independent exEnv exLateB1 exEarlyB1 "B" [cB2, cB1] [cB1, cB2] sortById
    (by decide) (by decide) (by decide)
    (fun l => ⟨sortById_perm l, sortById_sorted l⟩)

/-! ## The multi-layer composer -/

theorem registerLayers_length (env : Env) (c : Candidate) (l : List Election) :
    (registerLayers env c l).length = l.length := by
  induction l with
  | nil => rfl
  | cons e l ih => simp [registerLayers, ih]

theorem registerLayers_getElem (env : Env) (c : Candidate) (l : List Election) (i : Nat)
    (e : Election) (h : l[i]? = some e) :
    (registerLayers env c l)[i]? = some (RegisterCandidate env e c) := by
  induction l generalizing i with
  | nil => simp at h
  | cons e0 l ih =>
    cases i with
    | zero =>
      simp at h
      simp [registerLayers, h]
    | succ i =>
      simp at h
      simpa [registerLayers] using ih i h

theorem joinLayers_length (env : Env) (F : String → String → String) (id : String)
    (start : Nat) (l : List Election) : (joinLayers env F id start l).length = l.length := by
  induction l generalizing start with
  | nil => rfl
  | cons e l ih => simp [joinLayers, ih]

theorem joinLayers_getElem (env : Env) (F : String → String → String) (id : String)
    (start : Nat) (l : List Election) (i : Nat) (e : Election) (h : l[i]? = some e) :
    (joinLayers env F id start l)[i]? = some (NewJoin env e (F id (toString (start + i)))) := by
  induction l generalizing start i with
  | nil => simp at h
  | cons e0 l ih =>
    cases i with
    | zero =>
      simp at h
      simp [joinLayers, h]
    | succ i =>
      simp at h
      have h2 := ih (start + 1) i h
      have h3 : start + 1 + i = start + (i + 1) := by omega
      rw [h3] at h2
      simpa [joinLayers] using h2

/-- C17: one `MultiElection.RegisterCandidate(c)` call applies `RegisterCandidate`
with the unmodified `c` to every layer once: the number of layers is kept, layer
`i` afterwards is what `RegisterCandidate` makes of layer `i`, and its counter is
larger by exactly 1.  A composer built for `N` layers has `N` fresh engines. -/
theorem MultiElection_RegisterCandidate_layers (env : Env) (me : MultiElection)
    (c : Candidate) :
    (MultiElection.RegisterCandidate env me c).elections.length = me.elections.length ∧
      (∀ (i : Nat) (e : Election), me.elections[i]? = some e →
        (MultiElection.RegisterCandidate env me c).elections[i]?
          = some (RegisterCandidate env e c)) ∧
      (∀ (i : Nat) (e : Election), me.elections[i]? = some e →
        ∃ e2 : Election, (MultiElection.RegisterCandidate env me c).elections[i]? = some e2 ∧
          e2.nodes = e.nodes + 1) ∧
      (∀ (N : Nat) (limit : Int),
        (NewMultiElection N limit).elections.length = N ∧
          ∀ e ∈ (NewMultiElection N limit).elections, e = NewElection limit) := by
  refine ⟨registerLayers_length env c me.elections, ?_, ?_, ?_⟩
  · intro i e h
    exact registerLayers_getElem env c me.elections i e h
  · intro i e h
    exact ⟨RegisterCandidate env e c, registerLayers_getElem env c me.elections i e h,
      (RegisterCandidate_nodes env e c).1⟩
  · intro N limit
    constructor
    · simp [NewMultiElection]
    · intro e he
      simp only [NewMultiElection, Int.toNat_ofNat] at he
      exact List.eq_of_mem_replicate he

/-- Witness C17: three layers, one registration; every counter is 1. -/
theorem MultiElection_RegisterCandidate_layers_witness :
    (∃ e2 : Election, (MultiElection.RegisterCandidate exEnv exMulti cA1).elections[2]? = some e2 ∧
        e2.nodes = (NewElection 2).nodes + 1) ∧
      (MultiElection.RegisterCandidate exEnv exMulti cA1).elections.map Election.nodes
        = [1, 1, 1] :=
  ⟨(MultiElection_RegisterCandidate_layers exEnv exMulti cA1).2.2.1 2 (NewElection 2)
      (by decide), by decide⟩

/-- C18: one `MultiElection.NewJoin(id)` call keeps the number of layers and makes
layer `i` what `NewJoin` makes of it for the layer-scoped identity
`FullId(id, i)`: that identity is appended to the membership list of its
partition in layer `i`, and nothing else in the layer changes.  When `FullId`
is injective in the layer index the identities of the layers are pairwise
distinct. -/
theorem MultiElection_NewJoin_layers (env : Env) (F : String → String → String)
    (me : MultiElection) (id : String) :
    (MultiElection.NewJoin env F me id).elections.length = me.elections.length ∧
      (∀ (i : Nat) (e : Election), me.elections[i]? = some e →
        (MultiElection.NewJoin env F me id).elections[i]?
          = some (NewJoin env e (F id (toString i)))) ∧
      (∀ (i : Nat) (e : Election), me.elections[i]? = some e →
        ∃ e2 : Election, (MultiElection.NewJoin env F me id).elections[i]? = some e2 ∧
          readKey e2.camera (env.getAS (F id (toString i)))
            = readKey e.camera (env.getAS (F id (toString i))) ++ [F id (toString i)] ∧
          (∀ p, p ≠ env.getAS (F id (toString i)) →
            lookupKey e2.camera p = lookupKey e.camera p) ∧
          e2.candidates = e.candidates ∧ e2.elected = e.elected ∧ e2.nodes = e.nodes ∧
          e2.limit = e.limit ∧ e2.sent = e.sent ∧ e2.runs = e.runs) ∧
      ((∀ i j, i < me.elections.length → j < me.elections.length →
          F id (toString i) = F id (toString j) → i = j) →
        ((List.range me.elections.length).map (fun i => F id (toString i))).Nodup) := by
  have hget : ∀ (i : Nat) (e : Election), me.elections[i]? = some e →
      (MultiElection.NewJoin env F me id).elections[i]?
        = some (NewJoin env e (F id (toString i))) := by
    intro i e h
    have h2 := joinLayers_getElem env F id 0 me.elections i e h
    rw [Nat.zero_add] at h2
    exact h2
  refine ⟨joinLayers_length env F id 0 me.elections, hget, ?_, ?_⟩
  · intro i e h
    refine ⟨NewJoin env e (F id (toString i)), hget i e h, ?_, ?_, rfl, rfl, rfl, rfl, rfl, rfl⟩
    · have h1 := NewJoin_camera env e (F id (toString i)) (env.getAS (F id (toString i)))
      rw [if_pos rfl] at h1
      simp only [readKey, h1]
    · intro p hp
      rw [NewJoin_camera, if_neg hp]
  · intro hinj
    apply List.Nodup.map_on
    · intro x hx y hy hxy
      exact hinj x y (List.mem_range.mp hx) (List.mem_range.mp hy) hxy
    · exact List.nodup_range _

/-- Witness C18: three layers and the identity `A1`; the layer-scoped identities
`A1.0`, `A1.1`, `A1.2` are distinct and each layer holds its own. -/
theorem MultiElection_NewJoin_layers_witness :
    ((List.range exMulti.elections.length).map
        (fun i => exFullId "A1" (toString i))).Nodup ∧
      (MultiElection.NewJoin exEnv exFullId exMulti "A1").elections.map Election.camera
        = [[("A", ["A1.0"])], [("A", ["A1.1"])], [("A", ["A1.2"])]] :=
  ⟨(MultiElection_NewJoin_layers exEnv exFullId exMulti "A1").2.2.2
      (by
        intro i j hi hj
        have hlen : exMulti.elections.length = 3 := by decide
        rw [hlen] at hi hj
        interval_cases i <;> interval_cases j <;> decide),
    by decide⟩

end CacheTorrent
